import Mathlib

/-!
Verification of mruby-fast-json (src/src/mrb_fastjson.cpp) against its
natural-language specification.

The development shallowly embeds the C++ source: byte strings are `List Nat`
(each element one byte), machine integers are `Nat`/`Int` with explicit range
conditions, host heap state (the mruby string a view may alias) is passed
explicitly, and the external simdjson engine - which the repository treats as
a black box - is modelled from the specification where its behaviour decides
a claim (each such definition is marked `Modelled from the spec:`).
-/

namespace MrbFastJson

/-! ## Buffer Preparation (need_allocation, simdjson_safe_view_from_mrb_string) -/

/-- Host string storage as Buffer Preparation sees it: start address of the
byte storage, logical length, reported capacity, and the frozen flag. -/
structure MrbString where
  ptr : Nat
  len : Nat
  capa : Nat
  frozen : Bool
deriving DecidableEq, Repr

/-- Provenance of the Buffer View handed to the engine: either it borrows the
host string storage in place, or it is a private owned padded copy. -/
inductive Provenance where
  | borrowed
  | ownedCopy
deriving DecidableEq, Repr

/-- Embeds `need_allocation` (non-debug build): returns true when a padded
copy must be allocated. First the reported capacity is checked against
`len + padding`; failing that, the page-boundary fallback checks whether
`(buf + len - 1) % pagesize + padding < pagesize`. -/
def need_allocation (pagesize padding : Nat) (buf len capa : Nat) : Bool :=
  if capa ≥ len + padding then
    false
  else
    let e := buf + len - 1
    let offset := e % pagesize
    if offset + padding < pagesize then false else true

/-- The byte range `[e, e + n)` lies within the same virtual-memory page as
the byte at address `e` (page size `ps`): its last byte is on `e`'s page. -/
def within_same_page (ps e n : Nat) : Prop :=
  (e + n - 1) / ps = e / ps

instance (ps e n : Nat) : Decidable (within_same_page ps e n) := by
  unfold within_same_page; infer_instance

/-- Outcome of Buffer Preparation: the (possibly frozen / resized) host
string afterwards, and the provenance of the returned view. -/
structure ViewResult where
  str : MrbString
  prov : Provenance
deriving DecidableEq, Repr

/-- Error raised by Buffer Preparation when `len + padding` would overflow. -/
inductive PrepError where
  | tooLarge
deriving DecidableEq, Repr

/-- Embeds `simdjson_safe_view_from_mrb_string` (non-debug build).
`sizeMax` stands for `SIZE_MAX`, `zc` for the `JSON.zero_copy_parsing`
flag. The zero-copy branch freezes the string and borrows; otherwise a
frozen string gets an owned padded copy; otherwise the string is grown in
place (and frozen) when its capacity is short, and the storage is borrowed. -/
def simdjson_safe_view_from_mrb_string (pagesize padding sizeMax : Nat)
    (zc : Bool) (s : MrbString) : Except PrepError ViewResult :=
  let len := s.len
  if zc && !(need_allocation pagesize padding s.ptr len s.capa) then
    .ok ⟨{ s with frozen := true }, .borrowed⟩
  else if s.frozen then
    .ok ⟨s, .ownedCopy⟩
  else if len > sizeMax - padding then
    .error .tooLarge
  else
    let required := len + padding
    if s.capa < required then
      .ok ⟨{ s with capa := required, frozen := true }, .borrowed⟩
    else
      .ok ⟨s, .borrowed⟩

/-- Helper: with zero-copy enabled and `need_allocation` reporting false, the
view borrows the storage and the string is frozen as a side effect. -/
theorem safe_view_zero_copy_freezes (ps pad szMax : Nat) (s : MrbString)
    (h : need_allocation ps pad s.ptr s.len s.capa = false) :
    simdjson_safe_view_from_mrb_string ps pad szMax true s =
      .ok ⟨{ s with frozen := true }, .borrowed⟩ := by
  unfold simdjson_safe_view_from_mrb_string
  simp [h]

/-- Helper: arithmetic fact linking the page-offset test used by
`need_allocation` to membership of a byte range in a single page. -/
theorem div_eq_iff_mod_add_lt (ps e n : Nat) (hps : 0 < ps) :
    (e + n) / ps = e / ps ↔ e % ps + n < ps := by
  constructor
  · intro h
    by_contra hcon
    push_neg at hcon
    have hdiv : (e + n) / ps ≥ e / ps + 1 := by
      have he : e + n = ps * (e / ps) + (e % ps + n) := by
        have := Nat.div_add_mod e ps
        omega
      rw [he, Nat.mul_add_div hps]
      have : (e % ps + n) / ps ≥ 1 := Nat.one_le_div_iff hps |>.mpr hcon
      omega
    omega
  · intro h
    have he : e + n = ps * (e / ps) + (e % ps + n) := by
      have := Nat.div_add_mod e ps
      omega
    rw [he, Nat.mul_add_div hps, Nat.div_eq_of_lt h]
    omega

/-- C6 counterexample: with page size 4096 and padding 64, a buffer whose
last logical byte sits at page offset 4032 has its padded byte range
`[e, e + 64)` entirely within the last byte's page, and its capacity check
fails, yet `need_allocation` still demands an allocation - refuting the
claim that the borrow decision holds exactly under those two conditions. -/
theorem need_allocation_counterexample :
    need_allocation 4096 64 1 4032 0 = true ∧
    within_same_page 4096 (1 + 4032 - 1) 64 ∧
    ¬ (0 ≥ 4032 + 64) := by decide

/-- C6 amended: in a non-debug build, `need_allocation` reports that the
borrow is possible exactly when the reported capacity covers
`len + padding`, or the byte range `[start+len-1, start+len-1+padding]`
(one byte more than the claim's half-open range: the padding must end
strictly inside the page) stays within the page of the last logical byte. -/
theorem need_allocation_amended (ps pad buf len capa : Nat) (hps : 0 < ps) :
    need_allocation ps pad buf len capa = false ↔
      capa ≥ len + pad ∨ within_same_page ps (buf + len - 1) (pad + 1) := by
  unfold need_allocation within_same_page
  by_cases hc : capa ≥ len + pad
  · simp [hc]
  · simp only [hc, if_false, ge_iff_le, false_or]
    have heq : (buf + len - 1) + (pad + 1) - 1 = (buf + len - 1) + pad := by omega
    rw [heq, div_eq_iff_mod_add_lt _ _ _ hps]
    by_cases hlt : (buf + len - 1) % ps + pad < ps
    · simp [hlt]
    · simp [hlt]

/-- C6 amended witness: instantiation at a concrete buffer whose capacity
already covers the padded length. -/
theorem need_allocation_amended_witness :
    need_allocation 4096 64 1 2 100 = false :=
  (need_allocation_amended 4096 64 1 2 100 (by decide)).mpr (Or.inl (by decide))

/-- C4 counterexample: a frozen string whose reported capacity covers the
padded length is borrowed (not copied) when zero-copy parsing is enabled,
refuting the claim that frozen inputs always receive an owned padded copy
regardless of the zero-copy flag. -/
theorem frozen_borrow_counterexample :
    (MrbString.mk 1 2 100 true).frozen = true ∧
    simdjson_safe_view_from_mrb_string 4096 64 (2 ^ 64 - 1) true ⟨1, 2, 100, true⟩ =
      .ok ⟨⟨1, 2, 100, true⟩, .borrowed⟩ := ⟨rfl, rfl⟩

/-- C4 amended: a frozen input string receives an owned padded copy whenever
the zero-copy borrow branch is not taken - that is, when the zero-copy flag
is off or `need_allocation` reports that borrowing is unsafe. (With
zero-copy on and the eligibility check passing, even a frozen string is
borrowed, as it is already immutable.) -/
theorem frozen_ownedCopy_amended (ps pad szMax : Nat) (zc : Bool) (s : MrbString)
    (hf : s.frozen = true)
    (h : zc = false ∨ need_allocation ps pad s.ptr s.len s.capa = true) :
    simdjson_safe_view_from_mrb_string ps pad szMax zc s = .ok ⟨s, .ownedCopy⟩ := by
  unfold simdjson_safe_view_from_mrb_string
  rcases h with h | h <;> simp [h, hf]

/-- C4 amended witness: a frozen string with zero-copy disabled receives an
owned padded copy. -/
theorem frozen_ownedCopy_amended_witness :
    simdjson_safe_view_from_mrb_string 4096 64 (2 ^ 64 - 1) false ⟨1, 2, 100, true⟩ =
      .ok ⟨⟨1, 2, 100, true⟩, .ownedCopy⟩ :=
  frozen_ownedCopy_amended 4096 64 (2 ^ 64 - 1) false ⟨1, 2, 100, true⟩ rfl (Or.inl rfl)

/-! ## Big-Integer Decoder (parse_decimal_to_u128, convert_big_integer_from_ondemand) -/

/-- Maximum value of an unsigned 128-bit integer (`U128_MAX` in the source). -/
def U128_MAX : Nat := 2 ^ 128 - 1

/-- ASCII decimal digit test. In the source the digit check is
`(unsigned)(*p - '0') > 9u`, whose unsigned wraparound rejects exactly the
bytes outside `'0'..'9'`. -/
def isDigit (b : Nat) : Bool := 48 ≤ b && b ≤ 57

/-- Embeds the accumulation loop of `parse_decimal_to_u128`: digits are
folded into a 128-bit unsigned accumulator, failing when a byte is not a
digit or when `acc * 10 + d` would exceed `U128_MAX` (the source compares
against the precomputed `LIMIT = U128_MAX / 10` and
`LIMIT_DIGIT = U128_MAX % 10`). -/
def parse_decimal_go : List Nat → Nat → Option Nat
  | [], acc => some acc
  | b :: rest, acc =>
    if ¬ isDigit b then none
    else
      let d := b - 48
      if acc > U128_MAX / 10 ∨ (acc = U128_MAX / 10 ∧ d > U128_MAX % 10) then none
      else parse_decimal_go rest (acc * 10 + d)

/-- Embeds `parse_decimal_to_u128`: empty digit runs and runs longer than 39
digits are rejected up front; otherwise the digits are accumulated with
per-step overflow detection. -/
def parse_decimal_to_u128 (digits : List Nat) : Option Nat :=
  if digits.length = 0 then none
  else if digits.length > 39 then none
  else parse_decimal_go digits 0

/-- Result of the big-integer decoder: either a host integer value or the
raw token text returned as a host string (the soft fallback). -/
inductive BigValue where
  | intVal (n : Int)
  | rawStr (tok : List Nat)
deriving DecidableEq, Repr

/-- Error raised by the big-integer decoder when no digits remain after the
sign (`E_TYPE_ERROR "invalid big integer"`). -/
inductive ConvError where
  | typeError
deriving DecidableEq, Repr

/-- Embeds `convert_big_integer_from_ondemand`. The negativity flag is
supplied by the engine (`v.is_negative()`); `tok` is the raw token text
(`v.raw_json()`). A leading sign byte is stripped from the token text
before accumulating. On accumulation failure the raw token is returned as
a string; a negative magnitude above `2^127` likewise falls back to the
raw token; magnitude exactly `2^127` yields the two's-complement minimum
via a bit-pattern reinterpretation. `big_from_acc` is the dispatch on the
accumulation result from the tail of the source function. -/
def big_from_acc (negative : Bool) (tok : List Nat) :
    Option Nat → Except ConvError BigValue
  | none => .ok (.rawStr tok)
  | some acc =>
    if negative then
      if acc > 2 ^ 127 then .ok (.rawStr tok)
      else if acc = 2 ^ 127 then .ok (.intVal (-(2 ^ 127 : Int)))
      else .ok (.intVal (-(acc : Int)))
    else .ok (.intVal (acc : Int))

def convert_big_integer_from_ondemand (negative : Bool) (tok : List Nat) :
    Except ConvError BigValue :=
  let pos : Nat := if tok.head? = some 43 ∨ tok.head? = some 45 then 1 else 0
  let digits := tok.drop pos
  if digits.isEmpty then .error .typeError
  else big_from_acc negative tok (parse_decimal_to_u128 digits)

/-- Numeric value of an ASCII decimal digit run, most significant first. -/
def digitsVal (ds : List Nat) : Nat := ds.foldl (fun a b => a * 10 + (b - 48)) 0

/-- Helper: folding digits from an accumulator never decreases it. -/
theorem digits_foldl_ge (ds : List Nat) (acc : Nat) :
    acc ≤ ds.foldl (fun a b => a * 10 + (b - 48)) acc := by
  induction ds generalizing acc with
  | nil => simp
  | cons b rest ih =>
    simp only [List.foldl_cons]
    exact le_trans (by omega) (ih (acc * 10 + (b - 48)))

/-- Helper: the accumulation loop succeeds exactly when the value of the
digits (folded from the accumulator) stays within `U128_MAX`, and then
returns that value. -/
theorem parse_decimal_go_spec (ds : List Nat) (acc : Nat)
    (hdig : ds.all isDigit = true) (hacc : acc ≤ U128_MAX) :
    parse_decimal_go ds acc =
      if ds.foldl (fun a b => a * 10 + (b - 48)) acc ≤ U128_MAX then
        some (ds.foldl (fun a b => a * 10 + (b - 48)) acc)
      else none := by
  have hU : U128_MAX = 340282366920938463463374607431768211455 := by
    norm_num [U128_MAX]
  induction ds generalizing acc with
  | nil => simp [parse_decimal_go, hacc]
  | cons b rest ih =>
    simp only [List.all_cons, Bool.and_eq_true] at hdig
    obtain ⟨hb, hrest⟩ := hdig
    have hb' : 48 ≤ b ∧ b ≤ 57 := by
      simpa [isDigit] using hb
    simp only [parse_decimal_go, hb, not_true, if_false, List.foldl_cons]
    by_cases hg : acc > U128_MAX / 10 ∨ (acc = U128_MAX / 10 ∧ b - 48 > U128_MAX % 10)
    · rw [if_pos hg]
      have hstep : U128_MAX < acc * 10 + (b - 48) := by omega
      have hge := digits_foldl_ge rest (acc * 10 + (b - 48))
      rw [if_neg (by omega)]
    · rw [if_neg hg]
      have hacc' : acc * 10 + (b - 48) ≤ U128_MAX := by omega
      exact ih (acc * 10 + (b - 48)) hrest hacc'

/-- Helper: behaviour of `parse_decimal_to_u128` on a run of digit bytes:
it yields the numeric value of the run when the run is nonempty, at most
39 digits long, and the value fits 128 unsigned bits; otherwise nothing. -/
theorem parse_decimal_to_u128_spec (ds : List Nat)
    (hdig : ds.all isDigit = true) :
    parse_decimal_to_u128 ds =
      if ds ≠ [] ∧ ds.length ≤ 39 ∧ digitsVal ds ≤ U128_MAX then
        some (digitsVal ds)
      else none := by
  unfold parse_decimal_to_u128
  by_cases h0 : ds.length = 0
  · simp [h0, List.length_eq_zero.mp h0]
  · by_cases h39 : ds.length > 39
    · simp only [h0, if_false, h39, if_true]
      rw [if_neg (by omega)]
    · simp only [h0, if_false, h39, if_true]
      rw [parse_decimal_go_spec ds 0 hdig (by norm_num [U128_MAX])]
      have hne : ds ≠ [] := by
        intro h
        exact h0 (by simp [h])
      by_cases hv : digitsVal ds ≤ U128_MAX
      · rw [if_pos (by exact hv), if_pos ⟨hne, by omega, hv⟩]
        rfl
      · rw [if_neg (by exact hv), if_neg (by
          intro ⟨_, _, h⟩
          exact hv h)]

/-- C5: for a number token the engine classified as exceeding 64-bit range
(an optional minus sign followed by a nonempty digit run), the big-integer
decoder returns the raw token text as a host string when the digit run
exceeds 39 digits, when the accumulated value exceeds the unsigned 128-bit
maximum, or when the value is negative with magnitude strictly above
`2^127`; it returns the two's-complement minimum `-2^127` when negative
with magnitude exactly `2^127`; otherwise it returns the exact signed
(if negative) or unsigned 128-bit value of the digits. -/
theorem convert_big_integer_spec (neg : Bool) (ds : List Nat)
    (hne : ds ≠ []) (hdig : ds.all isDigit = true) :
    convert_big_integer_from_ondemand neg (if neg then 45 :: ds else ds) =
      if 39 < ds.length ∨ U128_MAX < digitsVal ds ∨
          (neg = true ∧ 2 ^ 127 < digitsVal ds) then
        .ok (.rawStr (if neg then 45 :: ds else ds))
      else if neg = true ∧ digitsVal ds = 2 ^ 127 then
        .ok (.intVal (-(2 ^ 127 : Int)))
      else
        .ok (.intVal (if neg then -(digitsVal ds : Int) else (digitsVal ds : Int))) := by
  have hU : U128_MAX = 340282366920938463463374607431768211455 := by
    norm_num [U128_MAX]
  obtain ⟨b, rest, rfl⟩ : ∃ b rest, ds = b :: rest := by
    cases ds with
    | nil => exact absurd rfl hne
    | cons b r => exact ⟨b, r, rfl⟩
  have hb : 48 ≤ b ∧ b ≤ 57 := by
    have := List.all_eq_true.mp hdig b (List.mem_cons_self _ _)
    simpa [isDigit] using this
  have hdrop : convert_big_integer_from_ondemand neg (if neg then 45 :: b :: rest else b :: rest) =
      big_from_acc neg (if neg then 45 :: b :: rest else b :: rest)
        (parse_decimal_to_u128 (b :: rest)) := by
    cases neg with
    | true => rfl
    | false =>
      simp only [Bool.false_eq_true, if_false]
      simp only [convert_big_integer_from_ondemand, List.head?_cons, Option.some.injEq]
      rw [if_neg (show ¬(b = 43 ∨ b = 45) by omega)]
      simp [List.isEmpty_cons]
  rw [hdrop]
  by_cases hbig : (b :: rest).length ≤ 39 ∧ digitsVal (b :: rest) ≤ U128_MAX
  · have hp : parse_decimal_to_u128 (b :: rest) = some (digitsVal (b :: rest)) := by
      rw [parse_decimal_to_u128_spec _ hdig,
        if_pos ⟨List.cons_ne_nil _ _, hbig.1, hbig.2⟩]
    rw [hp]
    simp only [big_from_acc]
    cases neg with
    | false =>
      rw [if_neg (by decide), if_neg (by
          rintro (h | h | ⟨h, _⟩)
          · omega
          · omega
          · exact absurd h (by decide)),
        if_neg (by
          rintro ⟨h, _⟩
          exact absurd h (by decide)),
        if_neg (by decide)]
    | true =>
      rw [if_pos (by trivial)]
      by_cases h127 : 2 ^ 127 < digitsVal (b :: rest)
      · rw [if_pos h127, if_pos (Or.inr (Or.inr ⟨rfl, h127⟩))]
      · rw [if_neg h127]
        by_cases heq : digitsVal (b :: rest) = 2 ^ 127
        · rw [if_pos heq,
            if_neg (show ¬(39 < (b :: rest).length ∨ U128_MAX < digitsVal (b :: rest) ∨
                (true = true ∧ 2 ^ 127 < digitsVal (b :: rest))) by
              rintro (h | h | ⟨_, h⟩)
              · omega
              · omega
              · omega),
            if_pos ⟨rfl, heq⟩]
        · rw [if_neg heq,
            if_neg (show ¬(39 < (b :: rest).length ∨ U128_MAX < digitsVal (b :: rest) ∨
                (true = true ∧ 2 ^ 127 < digitsVal (b :: rest))) by
              rintro (h | h | ⟨_, h⟩)
              · omega
              · omega
              · omega),
            if_neg (by
              rintro ⟨_, h⟩
              exact heq h),
            if_pos (by trivial)]
  · have hp : parse_decimal_to_u128 (b :: rest) = none := by
      rw [parse_decimal_to_u128_spec _ hdig,
        if_neg (by
          rintro ⟨_, h1, h2⟩
          exact hbig ⟨h1, h2⟩)]
    rw [hp]
    simp only [big_from_acc]
    have h3 : 39 < (b :: rest).length ∨ U128_MAX < digitsVal (b :: rest) := by omega
    rw [if_pos (h3.elim Or.inl (fun h => Or.inr (Or.inl h)))]

/-- C5 witness: the single digit token `"1"` decodes to the 128-bit host
integer one. -/
theorem convert_big_integer_spec_witness :
    convert_big_integer_from_ondemand false [49] = .ok (.intVal 1) := by
  have h := convert_big_integer_spec false [49] (by decide) (by decide)
  rw [if_neg (by decide)] at h
  rw [h, if_neg (by
      rintro (h1 | h1 | ⟨h1, _⟩)
      · exact absurd h1 (by decide)
      · exact absurd h1 (by norm_num [digitsVal, U128_MAX])
      · exact absurd h1 (by decide)),
    if_neg (by
      rintro ⟨h1, _⟩
      exact absurd h1 (by decide)),
    if_neg (by decide)]
  norm_num [digitsVal]

/-! ## String decoding (engine string unescaping, modelled from the spec) -/

/-- Value of an ASCII hexadecimal digit (both letter cases), or nothing. -/
def hexVal (b : Nat) : Option Nat :=
  if 48 ≤ b ∧ b ≤ 57 then some (b - 48)
  else if 97 ≤ b ∧ b ≤ 102 then some (b - 87)
  else if 65 ≤ b ∧ b ≤ 70 then some (b - 55)
  else none

/-- Value of four hexadecimal digit bytes, most significant first. -/
def hex4 (h1 h2 h3 h4 : Nat) : Option Nat :=
  match hexVal h1, hexVal h2, hexVal h3, hexVal h4 with
  | some a, some b, some c, some d => some (((a * 16 + b) * 16 + c) * 16 + d)
  | _, _, _, _ => none

/-- Standard UTF-8 encoding of a Unicode code point as bytes. -/
def utf8Encode (cp : Nat) : List Nat :=
  if cp < 128 then [cp]
  else if cp < 2048 then [192 + cp / 64, 128 + cp % 64]
  else if cp < 65536 then [224 + cp / 4096, 128 + cp / 64 % 64, 128 + cp % 64]
  else [240 + cp / 262144, 128 + cp / 4096 % 64, 128 + cp / 64 % 64, 128 + cp % 64]

/-- Decoded byte of a two-character JSON escape sequence, or nothing. -/
def simpleEsc (e : Nat) : Option Nat :=
  if e = 34 then some 34
  else if e = 92 then some 92
  else if e = 47 then some 47
  else if e = 98 then some 8
  else if e = 102 then some 12
  else if e = 110 then some 10
  else if e = 114 then some 13
  else if e = 116 then some 9
  else none

/-- Modelled from the spec: the external engine's JSON string unescaping
(the decoding performed by `get_string` / `unescaped_key`, which the
repository consumes as a black box). Input is the raw token content
between the quotes; output is the decoded UTF-8 byte string. Two-character
escapes decode to one byte, `\uXXXX` decodes to the UTF-8 encoding of the
code point (with surrogate pairs combined), raw bytes pass through, and
unescaped control bytes, lone backslashes, lone surrogates and malformed
escapes fail. The fuel argument only bounds recursion; each step consumes
at least one byte, so fuel equal to the input length always suffices. -/
def unescGo : Nat → List Nat → Option (List Nat)
  | _, [] => some []
  | 0, _ :: _ => none
  | fuel + 1, b :: rest =>
    if b = 92 then
      match rest with
      | [] => none
      | e :: rest1 =>
        match simpleEsc e with
        | some c => (unescGo fuel rest1).map (fun d => c :: d)
        | none =>
          if e = 117 then
            match rest1 with
            | h1 :: h2 :: h3 :: h4 :: rest2 =>
              match hex4 h1 h2 h3 h4 with
              | none => none
              | some cp =>
                if 55296 ≤ cp ∧ cp ≤ 56319 then
                  match rest2 with
                  | b1 :: b2 :: g1 :: g2 :: g3 :: g4 :: rest3 =>
                    if b1 = 92 ∧ b2 = 117 then
                      match hex4 g1 g2 g3 g4 with
                      | none => none
                      | some cp2 =>
                        if 56320 ≤ cp2 ∧ cp2 ≤ 57343 then
                          (unescGo fuel rest3).map
                            (fun d => utf8Encode (65536 + (cp - 55296) * 1024 + (cp2 - 56320)) ++ d)
                        else none
                    else none
                  | _ => none
                else if 56320 ≤ cp ∧ cp ≤ 57343 then none
                else (unescGo fuel rest2).map (fun d => utf8Encode cp ++ d)
            | _ => none
          else none
    else if b < 32 then none
    else (unescGo fuel rest).map (fun d => b :: d)

/-- Engine string unescaping at its natural fuel. -/
def unescapeContent (s : List Nat) : Option (List Nat) := unescGo s.length s

/-- Helper: a hexadecimal digit value is at most 15. -/
theorem hexVal_le (b x : Nat) (h : hexVal b = some x) : x ≤ 15 := by
  unfold hexVal at h
  split at h
  · simp only [Option.some.injEq] at h
    omega
  · split at h
    · simp only [Option.some.injEq] at h
      omega
    · split at h
      · simp only [Option.some.injEq] at h
        omega
      · exact absurd h (by simp)

/-- Helper: four hexadecimal digits give a value at most 65535. -/
theorem hex4_le (h1 h2 h3 h4 cp : Nat) (h : hex4 h1 h2 h3 h4 = some cp) :
    cp ≤ 65535 := by
  unfold hex4 at h
  cases e1 : hexVal h1 with
  | none => rw [e1] at h; simp at h
  | some a =>
    cases e2 : hexVal h2 with
    | none => rw [e1, e2] at h; simp at h
    | some b =>
      cases e3 : hexVal h3 with
      | none => rw [e1, e2, e3] at h; simp at h
      | some c =>
        cases e4 : hexVal h4 with
        | none => rw [e1, e2, e3, e4] at h; simp at h
        | some d =>
          rw [e1, e2, e3, e4] at h
          simp only [Option.some.injEq] at h
          have := hexVal_le _ _ e1
          have := hexVal_le _ _ e2
          have := hexVal_le _ _ e3
          have := hexVal_le _ _ e4
          omega

/-- Helper: UTF-8 encodings of basic-plane code points take at most 3 bytes. -/
theorem utf8Encode_length_le3 (cp : Nat) (h : cp ≤ 65535) :
    (utf8Encode cp).length ≤ 3 := by
  unfold utf8Encode
  split
  · simp
  · split
    · simp
    · split
      · simp
      · omega

/-- Helper: a UTF-8 encoding takes at most 4 bytes. -/
theorem utf8Encode_length_le4 (cp : Nat) : (utf8Encode cp).length ≤ 4 := by
  unfold utf8Encode
  split
  · simp
  · split
    · simp
    · split
      · simp
      · simp

/-- Helper: a successful unescape never lengthens the byte string, and it
strictly shortens it exactly when the raw content contains a backslash
(an escape sequence): every escape consumes more raw bytes than the
decoded bytes it produces. -/
theorem unescGo_spec (f : Nat) : ∀ s d, unescGo f s = some d →
    d.length ≤ s.length ∧ ((92 : Nat) ∈ s ↔ d.length < s.length) := by
  induction f with
  | zero =>
    intro s d h
    cases s with
    | nil =>
      simp only [unescGo, Option.some.injEq] at h
      subst h
      simp
    | cons b rest => exact absurd h (by simp [unescGo])
  | succ f ih =>
    intro s d h
    cases s with
    | nil =>
      simp only [unescGo, Option.some.injEq] at h
      subst h
      simp
    | cons b rest =>
      simp only [unescGo] at h
      split at h
      · -- b = 92: an escape sequence begins
        next h92 =>
        subst h92
        split at h
        · exact absurd h (by simp)
        next e rest1 =>
        split at h
        · -- two-character escape: consumes 2 bytes, produces 1
          next c hse =>
          rw [Option.map_eq_some'] at h
          obtain ⟨d1, hd1, hc⟩ := h
          obtain ⟨hle, _⟩ := ih rest1 d1 hd1
          have hdl : d.length = d1.length + 1 := by
            rw [← hc]
            simp
          refine ⟨by simp only [List.length_cons]; omega, ?_⟩
          exact ⟨fun _ => by simp only [List.length_cons]; omega,
            fun _ => List.mem_cons_self _ _⟩
        next hse =>
        split at h
        · -- unicode escape
          next h117 =>
          subst h117
          split at h
          · next h1 h2 h3 h4 rest2 =>
            split at h
            · exact absurd h (by simp)
            next cp hhex =>
            split at h
            · -- high surrogate: a full 12-byte pair decodes to at most 4 bytes
              next hsur =>
              split at h
              · next b1 b2 g1 g2 g3 g4 rest3 =>
                split at h
                · next hbu =>
                  split at h
                  · exact absurd h (by simp)
                  next cp2 hhex2 =>
                  split at h
                  · next hlo =>
                    rw [Option.map_eq_some'] at h
                    obtain ⟨d1, hd1, hc⟩ := h
                    obtain ⟨hle, _⟩ := ih rest3 d1 hd1
                    have hu4 := utf8Encode_length_le4
                      (65536 + (cp - 55296) * 1024 + (cp2 - 56320))
                    have hdl : d.length =
                        (utf8Encode (65536 + (cp - 55296) * 1024 + (cp2 - 56320))).length
                          + d1.length := by
                      rw [← hc]
                      simp
                    refine ⟨by simp only [List.length_cons]; omega, ?_⟩
                    exact ⟨fun _ => by simp only [List.length_cons]; omega,
                      fun _ => List.mem_cons_self _ _⟩
                  · exact absurd h (by simp)
                · exact absurd h (by simp)
              · exact absurd h (by simp)
            next hsur =>
            split at h
            · exact absurd h (by simp)
            next hlo =>
            -- ordinary code point: 6 raw bytes decode to at most 3 bytes
            rw [Option.map_eq_some'] at h
            obtain ⟨d1, hd1, hc⟩ := h
            obtain ⟨hle, _⟩ := ih rest2 d1 hd1
            have hu3 := utf8Encode_length_le3 cp (hex4_le _ _ _ _ _ hhex)
            have hdl : d.length = (utf8Encode cp).length + d1.length := by
              rw [← hc]
              simp
            refine ⟨by simp only [List.length_cons]; omega, ?_⟩
            exact ⟨fun _ => by simp only [List.length_cons]; omega,
              fun _ => List.mem_cons_self _ _⟩
          · exact absurd h (by simp)
        · exact absurd h (by simp)
      next hb92 =>
      split at h
      · exact absurd h (by simp)
      next hctl =>
      -- plain byte: passes through unchanged
      rw [Option.map_eq_some'] at h
      obtain ⟨d1, hd1, hc⟩ := h
      obtain ⟨hle, hiff⟩ := ih rest d1 hd1
      have hdl : d.length = d1.length + 1 := by
        rw [← hc]
        simp
      refine ⟨by simp only [List.length_cons]; omega, ?_⟩
      constructor
      · intro hm
        rcases List.mem_cons.mp hm with heq | hm'
        · exact absurd heq.symm hb92
        · have := hiff.mp hm'
          simp only [List.length_cons]
          omega
      · intro hl
        have : d1.length < rest.length := by
          simp only [List.length_cons] at hl
          omega
        exact List.mem_cons_of_mem _ (hiff.mpr this)

/-- Helper: unescaping a backslash-free byte string succeeds only as the
identity: with no escapes present the decoded bytes are the raw bytes. -/
theorem unescGo_no_escape (f : Nat) : ∀ s d, (92 : Nat) ∉ s →
    unescGo f s = some d → d = s := by
  induction f with
  | zero =>
    intro s d hm h
    cases s with
    | nil =>
      simp only [unescGo, Option.some.injEq] at h
      exact h.symm
    | cons b rest => exact absurd h (by simp [unescGo])
  | succ f ih =>
    intro s d hm h
    cases s with
    | nil =>
      simp only [unescGo, Option.some.injEq] at h
      exact h.symm
    | cons b rest =>
      have hb : b ≠ 92 := by
        intro hbe
        exact hm (by rw [hbe]; exact List.mem_cons_self _ _)
      simp only [unescGo] at h
      rw [if_neg hb] at h
      split at h
      · exact absurd h (by simp)
      · rw [Option.map_eq_some'] at h
        obtain ⟨d1, hd1, hc⟩ := h
        have hrest : (92 : Nat) ∉ rest := fun hm' => hm (List.mem_cons_of_mem _ hm')
        rw [← hc, ih rest d1 hrest hd1]

/-! ## String Fast-Path Extractor (convert_string_from_ondemand) -/

/-- Length in bytes the leading byte announces for a UTF-8 sequence
(the host interpreter's per-byte length table: ASCII and stray
continuation or invalid bytes count 1). Modelled from the spec and the
host interpreter's documented UTF-8 string semantics; the interpreter's
code is not part of this repository. -/
def utf8len_codepage (b : Nat) : Nat :=
  if b < 192 then 1
  else if b < 224 then 2
  else if b < 240 then 3
  else if b < 245 then 4
  else 1

/-- Byte length of the first UTF-8 character of the buffer (the host
interpreter's single-character scanner): the announced length when that
many bytes remain and each trailing byte is a continuation byte, and 1
otherwise. Modelled from the host interpreter's documented semantics. -/
def mrb_utf8len (l : List Nat) : Nat :=
  match l with
  | [] => 1
  | b :: rest =>
    let n := utf8len_codepage b
    if rest.length + 1 < n then 1
    else if (rest.take (n - 1)).all (fun c => decide (128 ≤ c) && decide (c < 192)) then n
    else 1

/-- Character-count loop of the host interpreter's UTF-8 string length:
one character per scanner step. The fuel only bounds recursion (each step
consumes at least one byte, so the byte count is enough fuel). -/
def utf8StrlenGo : Nat → List Nat → Nat
  | 0, _ => 0
  | _ + 1, [] => 0
  | fuel + 1, b :: rest =>
    1 + utf8StrlenGo fuel (rest.drop (mrb_utf8len (b :: rest) - 1))

/-- Embeds the host interpreter's UTF-8 character count of a byte buffer
(the count the source passes as the substring length). -/
def mrb_utf8_strlen (l : List Nat) : Nat := utf8StrlenGo l.length l

/-- Byte length of the first `k` UTF-8 characters of the buffer (the host
interpreter's character-to-byte index conversion), by the same scanner. -/
def chars2bytesGo : Nat → Nat → List Nat → Nat
  | 0, _, _ => 0
  | _ + 1, 0, _ => 0
  | _ + 1, _ + 1, [] => 0
  | fuel + 1, k + 1, b :: rest =>
    let n := mrb_utf8len (b :: rest)
    n + chars2bytesGo fuel k (rest.drop (n - 1))

/-- Byte span of the first `k` characters of the buffer. -/
def chars2bytes (l : List Nat) (k : Nat) : Nat := chars2bytesGo l.length k l

/-- Embeds the host substring primitive the source calls on the fast path
(character-indexed under UTF-8 strings, modelled from the host
interpreter's documented semantics): `beg` and `len` count characters,
the length is clamped to the available characters, a begin position past
the character count yields the host nil (`none`), and the selected
character range is returned as its bytes. -/
def mrb_str_substr (s : List Nat) (beg len : Nat) : Option (List Nat) :=
  let clen := mrb_utf8_strlen s
  if beg > clen then none
  else
    let len2 := min len (clen - beg)
    let rest := s.drop (chars2bytes s beg)
    some (rest.take (chars2bytes rest len2))

/-- Embeds `convert_string_from_ondemand` (lazy mode). `source` is the
original host string backing the document buffer; `content` is the raw
string token content between the quotes as reported by `v.raw_json()`,
sitting at byte `offset` of the buffer. The fast-path candidate is
exactly what the source computes: `mrb_str_substr` on the source string
with the byte offset passed as the begin position and the UTF-8
character count of the raw content passed as the length. The engine-
decoded string is obtained independently (`none` of the outer option is
an engine decode error raise); the candidate - possibly the host nil,
the inner `none` - is returned exactly when the decoded length equals
the raw length, and the decoded copy otherwise. -/
def convert_string_from_ondemand (source : List Nat) (offset : Nat)
    (content : List Nat) : Option (Option (List Nat)) :=
  let fast := mrb_str_substr source offset (mrb_utf8_strlen content)
  match unescapeContent content with
  | none => none
  | some dec =>
    if dec.length = content.length then some fast
    else some (some dec)

/-- C2: the fast path hands `mrb_str_substr` a byte offset as its
character-indexed begin position, so the program diverges from the
claimed byte-identical slice whenever a multibyte character precedes the
string token. In the document holding the two strings e-acute and ab,
the token ab (bytes 97 98, no escape sequences) sits at byte offset 7,
but character position 7 is the byte b: the accessor returns the bytes
98 34 (the letter b and a quote) instead of the token content, which the
plain byte slice at the reported offset does produce. With an all-ASCII
prefix the byte and character positions coincide and the returned string
is the correct slice, confirming the divergence is the prefix's doing. -/
theorem convert_string_substr_mismatch :
    convert_string_from_ondemand
        [91, 34, 195, 169, 34, 44, 34, 97, 98, 34, 93] 7 [97, 98] =
      some (some [98, 34]) ∧
    (([91, 34, 195, 169, 34, 44, 34, 97, 98, 34, 93].drop 7).take 2 = [97, 98] ∧
      (92 : Nat) ∉ [97, 98] ∧
      ([98, 34] : List Nat) ≠ [97, 98]) ∧
    convert_string_from_ondemand [34, 97, 98, 34] 1 [97, 98] =
      some (some [97, 98]) := by
  refine ⟨by decide, ⟨by decide, by decide, by decide⟩, by decide⟩

/-! ## Lazy Document state machine (mrb_json_doc_get, accessors, iterate) -/

/-- Mutable state of a lazy Document that the claims concern: the
`need_to_reparse` (dirty) flag of `struct mrb_json_doc`. -/
structure DocState where
  need_to_reparse : Bool
deriving DecidableEq, Repr

/-- Embeds `raise_simdjson_error_with_reparse`: sets the dirty flag, then
raises the mapped error (modelled as returning the error code). -/
def raise_simdjson_error_with_reparse (e : Nat) : DocState × Option Nat :=
  ({ need_to_reparse := true }, some e)

/-- Embeds `mrb_json_doc_get`: when the dirty flag is clear the document is
used as is; otherwise `parser.iterate` is re-run (its outcome supplied by
the engine as `iterateErr`), raising with the flag still set on failure
and clearing the flag on success. -/
def mrb_json_doc_get (d : DocState) (iterateErr : Option Nat) :
    DocState × Option Nat :=
  if !d.need_to_reparse then (d, none)
  else
    match iterateErr with
    | some e => raise_simdjson_error_with_reparse e
    | none => ({ need_to_reparse := false }, none)

/-- Embeds the accessor pattern shared by `mrb_json_doc_aref`, `_at`,
`_at_pointer`, `_at_path`, `_at_path_with_wildcard` and `_array_each`:
first `mrb_json_doc_get` (re-parsing if dirty, propagating its raise),
then the accessor's own engine operation, whose error is raised through
`raise_simdjson_error_with_reparse`. `iterateErr` is the engine outcome of
`parser.iterate` should it be invoked, `opResult` the outcome of the
accessor's own engine operation. -/
def mrb_json_doc_accessor {V : Type} (d : DocState) (iterateErr : Option Nat)
    (opResult : Except Nat V) : DocState × Except Nat V :=
  match mrb_json_doc_get d iterateErr with
  | (d1, some e) => (d1, .error e)
  | (d1, none) =>
    match opResult with
    | .error e =>
      ((raise_simdjson_error_with_reparse e).1, .error e)
    | .ok v => (d1, .ok v)

/-- Embeds `mrb_json_doc_iterate`: re-runs `parser.iterate` directly (it
does not call `mrb_json_doc_get`); on failure it sets the dirty flag and
raises; on success it installs the fresh document cursor and returns -
without touching the dirty flag. -/
def mrb_json_doc_iterate (d : DocState) (iterateErr : Option Nat) :
    DocState × Option Nat :=
  match iterateErr with
  | some e => raise_simdjson_error_with_reparse e
  | none => (d, none)

/-- C3: (a) whenever an accessor raises an engine-mapped error, the dirty
flag is true immediately afterwards; (b) an accessor invoked while the
flag is set first re-runs the iterate step: if that re-parse fails the
mapped error is raised with the flag still set (the accessor's own
operation never runs), and if it succeeds the flag is cleared before the
operation, the accessor behaving exactly like one entered with a clean
document. -/
theorem doc_dirty_invariant {V : Type} (d : DocState) (it : Option Nat)
    (op : Except Nat V) :
    (∀ e, (mrb_json_doc_accessor d it op).2 = .error e →
      (mrb_json_doc_accessor d it op).1.need_to_reparse = true) ∧
    (d.need_to_reparse = true →
      (∀ e, it = some e →
        mrb_json_doc_accessor d it op = (⟨true⟩, .error e)) ∧
      (it = none →
        (mrb_json_doc_get d it).1.need_to_reparse = false ∧
        mrb_json_doc_accessor d it op =
          mrb_json_doc_accessor ⟨false⟩ none op)) := by
  obtain ⟨dirty⟩ := d
  cases dirty with
  | false =>
    refine ⟨?_, by simp⟩
    intro e he
    cases op with
    | error e2 =>
      simp [mrb_json_doc_accessor, mrb_json_doc_get,
        raise_simdjson_error_with_reparse]
    | ok v =>
      simp [mrb_json_doc_accessor, mrb_json_doc_get] at he
  | true =>
    cases it with
    | some e0 =>
      refine ⟨?_, ?_⟩
      · intro e he
        simp [mrb_json_doc_accessor, mrb_json_doc_get,
          raise_simdjson_error_with_reparse]
      · intro _
        refine ⟨?_, by simp⟩
        intro e he
        injection he with he
        subst he
        simp [mrb_json_doc_accessor, mrb_json_doc_get,
          raise_simdjson_error_with_reparse]
    | none =>
      refine ⟨?_, ?_⟩
      · intro e he
        cases op with
        | error e2 =>
          simp [mrb_json_doc_accessor, mrb_json_doc_get,
            raise_simdjson_error_with_reparse]
        | ok v =>
          simp [mrb_json_doc_accessor, mrb_json_doc_get] at he
      · intro _
        refine ⟨by simp, fun _ => ⟨?_, ?_⟩⟩
        · simp [mrb_json_doc_get]
        · simp [mrb_json_doc_accessor, mrb_json_doc_get]

/-- C3 witness: concrete instances - a dirty document whose re-parse fails
raises that error with the flag still set, and a clean document whose
operation fails ends dirty. -/
theorem doc_dirty_invariant_witness :
    mrb_json_doc_accessor (V := Nat) ⟨true⟩ (some 7) (.ok 0) =
      (⟨true⟩, .error 7) ∧
    (mrb_json_doc_accessor (V := Nat) ⟨false⟩ none (.error 3)).1.need_to_reparse =
      true := by
  constructor
  · exact ((doc_dirty_invariant ⟨true⟩ (some 7) (.ok 0)).2 rfl).1 7 rfl
  · exact (doc_dirty_invariant ⟨false⟩ none (.error 3)).1 3 rfl

/-- C7 counterexample: starting from a dirty document, a successful manual
re-iteration (`mrb_json_doc_iterate`) returns success yet leaves the dirty
flag set - the source never clears `need_to_reparse` there - refuting the
claim that the flag is cleared immediately after the iterate succeeds. -/
theorem doc_iterate_counterexample :
    (mrb_json_doc_iterate ⟨true⟩ none).2 = none ∧
    (mrb_json_doc_iterate ⟨true⟩ none).1.need_to_reparse = true := by decide

/-- C7 amended: a successful explicit manual re-iteration resets the cursor
but leaves the dirty flag unchanged; when the document was dirty, the next
accessor call therefore still re-runs the iterate step through
`mrb_json_doc_get`, and only that step clears the flag (when its re-parse
succeeds). -/
theorem doc_iterate_amended (d : DocState) (hd : d.need_to_reparse = true) :
    mrb_json_doc_iterate d none = (d, none) ∧
    (mrb_json_doc_get (mrb_json_doc_iterate d none).1 none).1.need_to_reparse =
      false := by
  refine ⟨rfl, ?_⟩
  simp [mrb_json_doc_iterate, mrb_json_doc_get, hd]

/-- C7 amended witness: instantiation at the dirty state. -/
theorem doc_iterate_amended_witness :
    mrb_json_doc_iterate ⟨true⟩ none = (⟨true⟩, none) ∧
    (mrb_json_doc_get (mrb_json_doc_iterate ⟨true⟩ none).1 none).1.need_to_reparse =
      false :=
  doc_iterate_amended ⟨true⟩ rfl

/-! ## Host Value model and JSON Encoder (json_encode, mrb_json_dump) -/

/-- Object key of a host map: a string key or a symbolic (interned) key. -/
inductive JKey where
  | kstr (s : List Nat)
  | ksym (s : List Nat)
deriving DecidableEq, Repr

/-- Host Value: the closed variant over mruby values that the component
produces and consumes. Integers carry their mathematical value (`int`
covers the 64-bit value range and the bigint values decoded on overflow);
floats are embedded symbolically by their serialized number token, since
IEEE-754 arithmetic is outside the shallow embedding - the engine's
float printer and parser round-trip through that token. Strings are raw
byte strings. -/
inductive HostValue where
  | null
  | bool (b : Bool)
  | int (n : Int)
  | flt (tok : List Nat)
  | str (s : List Nat)
  | arr (items : List HostValue)
  | map (pairs : List (JKey × HostValue))
deriving Repr

/-- Lowercase hexadecimal digit byte of a value below 16. -/
def hexDigit (d : Nat) : Nat := if d < 10 then 48 + d else 87 + d

/-- Escaping of one byte per the encoder's rule table (the engine's
`escape_and_append_with_quotes`, modelled from the spec and the repository
tests): quote and backslash get two-character escapes, the five named
control characters get theirs, any other byte below 0x20 becomes a
six-character `\u00XX` escape with lowercase hex, and every other byte
passes through. -/
def escapeByte (b : Nat) : List Nat :=
  if b = 34 then [92, 34]
  else if b = 92 then [92, 92]
  else if b = 8 then [92, 98]
  else if b = 12 then [92, 102]
  else if b = 10 then [92, 110]
  else if b = 13 then [92, 114]
  else if b = 9 then [92, 116]
  else if b < 32 then [92, 117, 48, 48, hexDigit (b / 16), hexDigit (b % 16)]
  else [b]

/-- String-content escaping, byte by byte. -/
def escapeBytes : List Nat → List Nat
  | [] => []
  | b :: rest => escapeByte b ++ escapeBytes rest

/-- Decimal digit bytes of a natural number, most significant first; the
fuel only bounds recursion (any fuel of at least the digit count is
exact). -/
def natToBytesAux : Nat → Nat → List Nat
  | 0, _ => []
  | _ + 1, 0 => []
  | fuel + 1, n + 1 => natToBytesAux fuel ((n + 1) / 10) ++ [48 + (n + 1) % 10]

/-- Decimal ASCII representation of a natural number (`%llu` style). -/
def natToBytes (n : Nat) : List Nat :=
  if n = 0 then [48] else natToBytesAux (n + 1) n

/-- Decimal ASCII representation of an integer, with a minus sign when
negative (the builder's integer append). -/
def intToBytes (n : Int) : List Nat :=
  if n < 0 then 45 :: natToBytes n.natAbs else natToBytes n.toNat

/-- The integer value range of `mrb_int` (64-bit signed): values outside it
are mruby bigints, which `json_encode` does not recognise. -/
def fitsInt64 (n : Int) : Bool := decide (-(2 ^ 63) ≤ n) && decide (n < 2 ^ 63)

/-- Key serialization: `json_encode_string` for string keys and
`json_encode_symbol` (which renders the symbol's string form) for symbolic
keys - both produce the escaped quoted string of the key's bytes. -/
def json_encode_key (k : JKey) : List Nat :=
  match k with
  | .kstr s => 34 :: escapeBytes s ++ [34]
  | .ksym s => 34 :: escapeBytes s ++ [34]

mutual

/-- Embeds `json_encode`: dispatch on the host value kind. Null, booleans
and in-range integers print their literal text; strings print escaped in
quotes; floats print the engine's number token for the value (the token
the model embeds the float by); arrays and hashes print their members in
order with comma separators; a 64-bit-overflowing integer is an mruby
bigint, which falls into the default branch and is serialized as its
generic string representation, escaped as a string. -/
def json_encode : HostValue → List Nat
  | .null => [110, 117, 108, 108]
  | .bool true => [116, 114, 117, 101]
  | .bool false => [102, 97, 108, 115, 101]
  | .int n =>
    if fitsInt64 n then intToBytes n
    else 34 :: escapeBytes (intToBytes n) ++ [34]
  | .flt tok => tok
  | .str s => 34 :: escapeBytes s ++ [34]
  | .arr items => 91 :: json_encode_items items ++ [93]
  | .map pairs => 123 :: json_encode_pairs pairs ++ [125]

/-- Embeds `json_encode_array`'s element loop: first element bare, the
rest preceded by commas. -/
def json_encode_items : List HostValue → List Nat
  | [] => []
  | v :: rest => json_encode v ++ json_encode_items_rest rest

/-- Elements after the first, each preceded by a comma. -/
def json_encode_items_rest : List HostValue → List Nat
  | [] => []
  | v :: rest => 44 :: (json_encode v ++ json_encode_items_rest rest)

/-- Embeds `json_encode_hash`'s member loop (`dump_hash_cb` with its
first-member flag): key, colon, value, comma-separated. -/
def json_encode_pairs : List (JKey × HostValue) → List Nat
  | [] => []
  | (k, v) :: rest =>
    json_encode_key k ++ 58 :: (json_encode v ++ json_encode_pairs_rest rest)

/-- Hash members after the first, each preceded by a comma. -/
def json_encode_pairs_rest : List (JKey × HostValue) → List Nat
  | [] => []
  | (k, v) :: rest =>
    44 :: (json_encode_key k ++ 58 :: (json_encode v ++ json_encode_pairs_rest rest))

end

/-- One step of the UTF-8 validation automaton (the engine's
`validate_unicode`, modelled from the spec as exact well-formed UTF-8).
State 0 expects a sequence start; states 1 and 2 expect that many generic
continuation bytes; states 4-8 encode the restricted ranges of the first
continuation byte after `E0`, `ED`, `F0`, `F4` and `F1`-`F3` (excluding
overlong forms, surrogates and code points beyond U+10FFFF). -/
def utf8Step (st b : Nat) : Option Nat :=
  match st with
  | 0 =>
    if b < 128 then some 0
    else if 194 ≤ b ∧ b ≤ 223 then some 1
    else if b = 224 then some 4
    else if b = 237 then some 5
    else if (225 ≤ b ∧ b ≤ 236) ∨ (238 ≤ b ∧ b ≤ 239) then some 2
    else if b = 240 then some 6
    else if 241 ≤ b ∧ b ≤ 243 then some 8
    else if b = 244 then some 7
    else none
  | 1 => if 128 ≤ b ∧ b ≤ 191 then some 0 else none
  | 2 => if 128 ≤ b ∧ b ≤ 191 then some 1 else none
  | 4 => if 160 ≤ b ∧ b ≤ 191 then some 1 else none
  | 5 => if 128 ≤ b ∧ b ≤ 159 then some 1 else none
  | 6 => if 144 ≤ b ∧ b ≤ 191 then some 2 else none
  | 7 => if 128 ≤ b ∧ b ≤ 143 then some 2 else none
  | 8 => if 128 ≤ b ∧ b ≤ 191 then some 2 else none
  | _ => none

/-- Whole-buffer UTF-8 well-formedness: the automaton accepts the byte
string ending at a sequence boundary. -/
def validUtf8 (l : List Nat) : Bool :=
  match l.foldl (fun st b =>
      match st with
      | none => none
      | some s => utf8Step s b) (some 0) with
  | some 0 => true
  | _ => false

/-- The one typed error `mrb_json_dump` raises. -/
inductive DumpError where
  | utf8
deriving DecidableEq, Repr

/-- Embeds `mrb_json_dump`: serialize the host value, then run a single
UTF-8 validation pass over the produced text, raising the UTF-8 error when
it is not well-formed and returning the text otherwise. -/
def mrb_json_dump (v : HostValue) : Except DumpError (List Nat) :=
  if validUtf8 (json_encode v) then .ok (json_encode v)
  else .error .utf8

/-- C8: Dump validates the whole produced text after serialization and
raises the UTF-8 error exactly when that text is not well-formed UTF-8;
on well-formed output it returns the serialized text; and the UTF-8 error
is the only error Dump raises. -/
theorem mrb_json_dump_utf8_check (v : HostValue) :
    (mrb_json_dump v = .error .utf8 ↔ validUtf8 (json_encode v) = false) ∧
    (∀ e, mrb_json_dump v = .error e → e = .utf8) ∧
    (validUtf8 (json_encode v) = true → mrb_json_dump v = .ok (json_encode v)) := by
  unfold mrb_json_dump
  cases hv : validUtf8 (json_encode v) with
  | true => simp
  | false => simp

/-- C8 witness: a host string holding the lone byte 0xFF serializes to
invalid UTF-8 and Dump raises the UTF-8 error; `null` dumps to its
literal text. -/
theorem mrb_json_dump_utf8_check_witness :
    mrb_json_dump (.str [255]) = .error .utf8 ∧
    mrb_json_dump .null = .ok [110, 117, 108, 108] := by
  constructor
  · exact (mrb_json_dump_utf8_check (.str [255])).1.mpr (by decide)
  · exact (mrb_json_dump_utf8_check .null).2.2 (by decide)

/-! ## Lazy value conversion (convert_ondemand_value_to_mrb and friends) -/

/-- Engine number classification (`ondemand::number_type` with the typed
payload the converter reads): unsigned/signed 64-bit integers, a floating
point value (embedded by its token), or a big integer with its sign flag
and raw token. -/
inductive ONum where
  | u64 (n : Nat)
  | i64 (n : Int)
  | dbl (tok : List Nat)
  | big (negative : Bool) (tok : List Nat)
deriving Repr

/-- An engine on-demand value as the lazy conversion path consumes it:
strings carry their raw token content, object fields carry the engine's
already-unescaped key bytes (`field.unescaped_key()`). -/
inductive JVal where
  | null
  | boolean (b : Bool)
  | num (c : ONum)
  | strv (content : List Nat)
  | arrv (items : List JVal)
  | objv (fields : List (List Nat × JVal))
deriving Repr

/-- Embeds `mrb_hash_set` insertion semantics on the ordered-pairs model:
setting an existing key overwrites its value in place, otherwise the pair
is appended. -/
def mrb_hash_set (pairs : List (JKey × HostValue)) (k : JKey) (v : HostValue) :
    List (JKey × HostValue) :=
  if pairs.any (fun p => p.1 == k) then
    pairs.map (fun p => if p.1 == k then (p.1, v) else p)
  else pairs ++ [(k, v)]

mutual

/-- Embeds `convert_ondemand_value_to_mrb`: kind dispatch over the engine
value. Numbers follow `convert_number_from_ondemand` (64-bit integers
directly, floats as floats, big integers through the big-integer decoder,
whose raw-token fallback arrives as a host string); strings follow
`convert_string_from_ondemand`, with the fast path abstracted to the raw
token content (the source's substring call is embedded faithfully in
`convert_string_from_ondemand` itself; the abstraction here only affects
string payload bytes, never the key kind); arrays and objects recurse.
`none` stands for a raised conversion error. -/
def convert_ondemand_value_to_mrb : JVal → Option HostValue
  | .null => some .null
  | .boolean b => some (.bool b)
  | .num (.u64 n) => some (.int n)
  | .num (.i64 n) => some (.int n)
  | .num (.dbl tok) => some (.flt tok)
  | .num (.big neg tok) =>
    match convert_big_integer_from_ondemand neg tok with
    | .error _ => none
    | .ok (.intVal n) => some (.int n)
    | .ok (.rawStr s) => some (.str s)
  | .strv content =>
    match unescapeContent content with
    | none => none
    | some dec => some (.str (if dec.length = content.length then content else dec))
  | .arrv items => (convert_ondemand_array items).map .arr
  | .objv fields => (convert_ondemand_object fields []).map .map

/-- Embeds `convert_ondemand_array`'s element loop. -/
def convert_ondemand_array : List JVal → Option (List HostValue)
  | [] => some []
  | v :: rest =>
    match convert_ondemand_value_to_mrb v, convert_ondemand_array rest with
    | some hv, some hrest => some (hv :: hrest)
    | _, _ => none

/-- Embeds `convert_ondemand_object`'s field loop: every key is built with
`mrb_str_new` from the unescaped key bytes - a string key, with no
symbolization option - and the pair is installed with `mrb_hash_set`. -/
def convert_ondemand_object :
    List (List Nat × JVal) → List (JKey × HostValue) → Option (List (JKey × HostValue))
  | [], acc => some acc
  | (k, v) :: rest, acc =>
    match convert_ondemand_value_to_mrb v with
    | none => none
    | some hv => convert_ondemand_object rest (mrb_hash_set acc (.kstr k) hv)

end

mutual

/-- Every object key of the host value, at every depth, is a string key. -/
def allStrKeys : HostValue → Bool
  | .map pairs => allStrKeysPairs pairs
  | .arr items => allStrKeysList items
  | _ => true

/-- `allStrKeys` over a sequence of host values. -/
def allStrKeysList : List HostValue → Bool
  | [] => true
  | v :: rest => allStrKeys v && allStrKeysList rest

/-- `allStrKeys` over map pairs: each key is a string key and each value
satisfies `allStrKeys`. -/
def allStrKeysPairs : List (JKey × HostValue) → Bool
  | [] => true
  | (k, v) :: rest =>
    (match k with
     | .kstr _ => true
     | .ksym _ => false) && allStrKeys v && allStrKeysPairs rest

end

/-- Helper: overwriting values (with a key-respecting map) preserves
`allStrKeysPairs` when the new value has string keys throughout. -/
theorem allStrKeysPairs_map_set (k : List Nat) (v : HostValue)
    (hv : allStrKeys v = true) :
    ∀ pairs, allStrKeysPairs pairs = true →
      allStrKeysPairs (pairs.map
        (fun p => if p.1 == JKey.kstr k then (p.1, v) else p)) = true := by
  intro pairs
  induction pairs with
  | nil =>
    intro _
    simp [allStrKeysPairs]
  | cons p rest ih =>
    intro hp
    obtain ⟨pk, pv⟩ := p
    simp only [allStrKeysPairs, Bool.and_eq_true] at hp
    obtain ⟨⟨hk, hval⟩, hrest⟩ := hp
    simp only [List.map_cons]
    by_cases hpk : pk == JKey.kstr k
    · rw [if_pos hpk]
      simp only [allStrKeysPairs, Bool.and_eq_true]
      exact ⟨⟨hk, hv⟩, ih hrest⟩
    · rw [if_neg hpk]
      simp only [allStrKeysPairs, Bool.and_eq_true]
      exact ⟨⟨hk, hval⟩, ih hrest⟩

/-- Helper: appending a string-keyed pair preserves `allStrKeysPairs`. -/
theorem allStrKeysPairs_append_one (k : List Nat) (v : HostValue)
    (hv : allStrKeys v = true) :
    ∀ pairs, allStrKeysPairs pairs = true →
      allStrKeysPairs (pairs ++ [(JKey.kstr k, v)]) = true := by
  intro pairs
  induction pairs with
  | nil =>
    intro _
    simp [allStrKeysPairs, hv]
  | cons p rest ih =>
    intro hp
    obtain ⟨pk, pv⟩ := p
    simp only [allStrKeysPairs, Bool.and_eq_true] at hp
    obtain ⟨⟨hk, hval⟩, hrest⟩ := hp
    simp only [List.cons_append, allStrKeysPairs, Bool.and_eq_true]
    exact ⟨⟨hk, hval⟩, ih hrest⟩

/-- Helper: `mrb_hash_set` with a string key preserves
`allStrKeysPairs`. -/
theorem mrb_hash_set_allStrKeys (pairs : List (JKey × HostValue))
    (k : List Nat) (v : HostValue)
    (hp : allStrKeysPairs pairs = true) (hv : allStrKeys v = true) :
    allStrKeysPairs (mrb_hash_set pairs (.kstr k) v) = true := by
  unfold mrb_hash_set
  split
  · exact allStrKeysPairs_map_set k v hv pairs hp
  · exact allStrKeysPairs_append_one k v hv pairs hp

mutual

/-- Helper: lazily converted values have string keys throughout. -/
theorem convert_strkeys_val (j : JVal) (v : HostValue)
    (h : convert_ondemand_value_to_mrb j = some v) : allStrKeys v = true := by
  cases j with
  | null =>
    simp only [convert_ondemand_value_to_mrb, Option.some.injEq] at h
    subst h
    rfl
  | boolean b =>
    simp only [convert_ondemand_value_to_mrb, Option.some.injEq] at h
    subst h
    rfl
  | num c =>
    cases c with
    | u64 n =>
      simp only [convert_ondemand_value_to_mrb, Option.some.injEq] at h
      subst h
      rfl
    | i64 n =>
      simp only [convert_ondemand_value_to_mrb, Option.some.injEq] at h
      subst h
      rfl
    | dbl tok =>
      simp only [convert_ondemand_value_to_mrb, Option.some.injEq] at h
      subst h
      rfl
    | big neg tok =>
      simp only [convert_ondemand_value_to_mrb] at h
      split at h
      · exact absurd h (by simp)
      · simp only [Option.some.injEq] at h
        subst h
        rfl
      · simp only [Option.some.injEq] at h
        subst h
        rfl
  | strv content =>
    simp only [convert_ondemand_value_to_mrb] at h
    split at h
    · exact absurd h (by simp)
    · simp only [Option.some.injEq] at h
      subst h
      rfl
  | arrv items =>
    simp only [convert_ondemand_value_to_mrb] at h
    rw [Option.map_eq_some'] at h
    obtain ⟨hl, hcl, hv⟩ := h
    subst hv
    simp only [allStrKeys]
    exact convert_strkeys_arr items hl hcl
  | objv fields =>
    simp only [convert_ondemand_value_to_mrb] at h
    rw [Option.map_eq_some'] at h
    obtain ⟨ps, hcl, hv⟩ := h
    subst hv
    simp only [allStrKeys]
    exact convert_strkeys_obj fields [] ps rfl hcl

/-- Helper: lazily converted arrays have string keys throughout. -/
theorem convert_strkeys_arr (l : List JVal) (vs : List HostValue)
    (h : convert_ondemand_array l = some vs) : allStrKeysList vs = true := by
  cases l with
  | nil =>
    simp only [convert_ondemand_array, Option.some.injEq] at h
    subst h
    rfl
  | cons v rest =>
    simp only [convert_ondemand_array] at h
    split at h
    · next hv hrest heq1 heq2 =>
      simp only [Option.some.injEq] at h
      subst h
      simp only [allStrKeysList, Bool.and_eq_true]
      exact ⟨convert_strkeys_val v hv heq1, convert_strkeys_arr rest hrest heq2⟩
    · exact absurd h (by simp)

/-- Helper: lazily converted objects have string keys throughout,
provided the accumulated pairs do. -/
theorem convert_strkeys_obj (fs : List (List Nat × JVal))
    (acc : List (JKey × HostValue)) (ps : List (JKey × HostValue))
    (hacc : allStrKeysPairs acc = true)
    (h : convert_ondemand_object fs acc = some ps) :
    allStrKeysPairs ps = true := by
  cases fs with
  | nil =>
    simp only [convert_ondemand_object, Option.some.injEq] at h
    subst h
    exact hacc
  | cons f rest =>
    obtain ⟨k, v⟩ := f
    simp only [convert_ondemand_object] at h
    split at h
    · exact absurd h (by simp)
    · next hv heq =>
      exact convert_strkeys_obj rest (mrb_hash_set acc (.kstr k) hv) ps
        (mrb_hash_set_allStrKeys acc k hv hacc (convert_strkeys_val v hv heq)) h

end

/-- C10: every map produced by the lazy conversion path - shared by every
Document accessor - has string keys for all object members at every
nesting depth: the path builds keys with `mrb_str_new` and offers no
symbolization option, so keys obtained through a Document are never
symbolic. -/
theorem convert_ondemand_all_string_keys (j : JVal) (v : HostValue)
    (h : convert_ondemand_value_to_mrb j = some v) : allStrKeys v = true :=
  convert_strkeys_val j v h

/-- C10 witness: a one-field object converts to a map with a string key. -/
theorem convert_ondemand_all_string_keys_witness :
    allStrKeys (HostValue.map [(.kstr [97], .null)]) = true :=
  convert_ondemand_all_string_keys (.objv [([97], .null)])
    (.map [(.kstr [97], .null)]) (by rfl)

/-! ## Eager Parse (engine DOM parse composed with convert_element) -/

/-- JSON insignificant whitespace bytes. -/
def isWs (b : Nat) : Bool := b = 32 || b = 9 || b = 10 || b = 13

/-- Skip insignificant whitespace. -/
def skipWs (l : List Nat) : List Nat := l.dropWhile isWs

/-- Error kinds of the parse model, following the engine error codes the
repository maps (only the distinctions the claims need). -/
inductive JErr where
  | empty
  | tape
  | natom
  | tatom
  | fatom
  | unclosedString
  | stringErr
  | number
  | bigint
  | trailing
  | utf8
  | depth
deriving DecidableEq, Repr

/-- Modelled from the spec: the engine tokenizer's string scan - consume
raw token content up to the closing quote, keeping escape pairs together;
an unterminated string fails. Fuel bounds recursion (input length
suffices). -/
def splitStringTok : Nat → List Nat → Option (List Nat × List Nat)
  | 0, _ => none
  | _ + 1, [] => none
  | f + 1, b :: rest =>
    if b = 34 then some ([], rest)
    else if b = 92 then
      match rest with
      | [] => none
      | e :: rest1 => (splitStringTok f rest1).map (fun p => (92 :: e :: p.1, p.2))
    else (splitStringTok f rest).map (fun p => (b :: p.1, p.2))

/-- Bytes that can occur inside a number token. -/
def numByte (b : Nat) : Bool :=
  isDigit b || b = 45 || b = 43 || b = 46 || b = 101 || b = 69

/-- A well-formed JSON integer digit run: nonempty, all digits, no leading
zero unless the run is exactly `0`. -/
def digitsOk (ds : List Nat) : Bool :=
  !ds.isEmpty && ds.all isDigit && (ds.head? != some 48 || ds.length == 1)

/-- Engine number classification of a token: an integer with its sign and
digit run, or a floating-point number. -/
inductive NumClass where
  | intc (neg : Bool) (ds : List Nat)
  | fltc
deriving DecidableEq, Repr

/-- Exponent part check: optional sign, then a nonempty digit run to the
end of the token. -/
def checkExpTail (r : List Nat) : Option NumClass :=
  let r1 := if r.head? = some 43 ∨ r.head? = some 45 then r.tail else r
  if r1.isEmpty then none
  else if r1.all isDigit then some .fltc else none

/-- Modelled from the spec: the engine's number grammar check and
classification - optional minus sign, an integer part without leading
zeros, then an optional fraction and exponent, whose presence makes the
token floating point. -/
def checkNum (tok : List Nat) : Option NumClass :=
  let neg : Bool := tok.head? == some 45
  let r1 := if tok.head? = some 45 then tok.tail else tok
  let ip := r1.takeWhile isDigit
  let r2 := r1.dropWhile isDigit
  if digitsOk ip = false then none
  else
    match r2 with
    | [] => some (.intc neg ip)
    | 46 :: r3 =>
      let fp := r3.takeWhile isDigit
      let r4 := r3.dropWhile isDigit
      if fp.isEmpty then none
      else
        match r4 with
        | [] => some .fltc
        | 101 :: r5 => checkExpTail r5
        | 69 :: r5 => checkExpTail r5
        | _ => none
    | 101 :: r3 => checkExpTail r3
    | 69 :: r3 => checkExpTail r3
    | _ => none

/-- Number-token conversion, following the engine's classification and
`convert_element`: integer tokens in the signed or unsigned 64-bit value
range become host integers (`mrb_convert_number`, a bigint above the
63-bit boundary); fractional or exponent tokens become floats (embedded
by their token); out-of-range integers are the engine's bigint error in
DOM mode. -/
def parseNumVal (tok : List Nat) : Except JErr HostValue :=
  match checkNum tok with
  | none => .error .number
  | some .fltc => .ok (.flt tok)
  | some (.intc neg ds) =>
    let n : Int := if neg then -(digitsVal ds : Int) else (digitsVal ds : Int)
    if -(2 ^ 63) ≤ n ∧ n < 2 ^ 64 then .ok (.int n) else .error .bigint

/-- Take the maximal run of number bytes as the token, then convert it. -/
def parseNumber (input : List Nat) : Except JErr (HostValue × List Nat) :=
  match parseNumVal (input.takeWhile numByte) with
  | .error e => .error e
  | .ok v => .ok (v, input.dropWhile numByte)

/-- Fold the parsed object members into a host hash with `mrb_hash_set`,
in order (the eager `convert_object` loop). -/
def buildHashGo : List (JKey × HostValue) → List (JKey × HostValue) →
    List (JKey × HostValue)
  | acc, [] => acc
  | acc, (k, v) :: rest => buildHashGo (mrb_hash_set acc k v) rest

/-- Host hash from parsed members, starting empty. -/
def buildHash (l : List (JKey × HostValue)) : List (JKey × HostValue) :=
  buildHashGo [] l

mutual

/-- Modelled from the spec: the engine's recursive-descent parse of one
JSON value composed with the eager converter `convert_element` - literal
atoms, strings (tokenized, then decoded by the engine's unescaper),
arrays, objects (keys symbolized or not per `symbolize_names`, members
installed with `mrb_hash_set`) and numbers. Returns the host value and the
unconsumed tail. The fuel argument only bounds recursion depth; any fuel
of at least twice the input length is exact. -/
def parseVal (symb : Bool) : Nat → List Nat → Except JErr (HostValue × List Nat)
  | 0, _ => .error .depth
  | fuel + 1, input =>
    match skipWs input with
    | [] => .error .tape
    | b :: rest =>
      if b = 110 then
        match rest with
        | 117 :: 108 :: 108 :: r => .ok (.null, r)
        | _ => .error .natom
      else if b = 116 then
        match rest with
        | 114 :: 117 :: 101 :: r => .ok (.bool true, r)
        | _ => .error .tatom
      else if b = 102 then
        match rest with
        | 97 :: 108 :: 115 :: 101 :: r => .ok (.bool false, r)
        | _ => .error .fatom
      else if b = 34 then
        match splitStringTok (rest.length + 1) rest with
        | none => .error .unclosedString
        | some (content, r) =>
          match unescapeContent content with
          | none => .error .stringErr
          | some dec => .ok (.str dec, r)
      else if b = 91 then
        let r1 := skipWs rest
        if r1.head? = some 93 then .ok (.arr [], r1.tail)
        else
          match parseVal symb fuel r1 with
          | .error e => .error e
          | .ok (v, r2) =>
            match parseArrTail symb fuel r2 with
            | .error e => .error e
            | .ok (vs, r3) => .ok (.arr (v :: vs), r3)
      else if b = 123 then
        let r1 := skipWs rest
        if r1.head? = some 125 then .ok (.map [], r1.tail)
        else
          match parseMember symb fuel r1 with
          | .error e => .error e
          | .ok (p, r2) =>
            match parseObjTail symb fuel r2 with
            | .error e => .error e
            | .ok (ps, r3) => .ok (.map (buildHash (p :: ps)), r3)
      else if b = 45 || isDigit b then parseNumber (b :: rest)
      else .error .tape

/-- Array elements after the first: a closing bracket ends the array, a
comma is followed by the next element. -/
def parseArrTail (symb : Bool) : Nat → List Nat →
    Except JErr (List HostValue × List Nat)
  | 0, _ => .error .depth
  | fuel + 1, input =>
    let r := skipWs input
    if r.head? = some 93 then .ok ([], r.tail)
    else if r.head? = some 44 then
      match parseVal symb fuel r.tail with
      | .error e => .error e
      | .ok (v, r2) =>
        match parseArrTail symb fuel r2 with
        | .error e => .error e
        | .ok (vs, r3) => .ok (v :: vs, r3)
    else .error .tape

/-- One object member: a quoted key (decoded by the engine's unescaper and
converted to a string or symbolic key per `symbolize_names`, as
`convert_key_as_str` / `convert_key_as_sym`), a colon, then the value. -/
def parseMember (symb : Bool) : Nat → List Nat →
    Except JErr ((JKey × HostValue) × List Nat)
  | 0, _ => .error .depth
  | fuel + 1, input =>
    let r := skipWs input
    if r.head? = some 34 then
      match splitStringTok (r.tail.length + 1) r.tail with
      | none => .error .unclosedString
      | some (content, r2) =>
        match unescapeContent content with
        | none => .error .stringErr
        | some kd =>
          let r3 := skipWs r2
          if r3.head? = some 58 then
            match parseVal symb fuel r3.tail with
            | .error e => .error e
            | .ok (v, r4) =>
              .ok ((if symb then JKey.ksym kd else JKey.kstr kd, v), r4)
          else .error .tape
    else .error .tape

/-- Object members after the first: a closing brace ends the object, a
comma is followed by the next member. -/
def parseObjTail (symb : Bool) : Nat → List Nat →
    Except JErr (List (JKey × HostValue) × List Nat)
  | 0, _ => .error .depth
  | fuel + 1, input =>
    let r := skipWs input
    if r.head? = some 125 then .ok ([], r.tail)
    else if r.head? = some 44 then
      match parseMember symb fuel r.tail with
      | .error e => .error e
      | .ok (p, r2) =>
        match parseObjTail symb fuel r2 with
        | .error e => .error e
        | .ok (ps, r3) => .ok (p :: ps, r3)
    else .error .tape

end

/-- Embeds `mrb_json_parse` over the modelled engine: empty (or
whitespace-only) input is the empty-input error, invalid UTF-8 input the
UTF-8 error; otherwise the document is parsed and trailing non-whitespace
content is rejected. -/
def mrb_json_parse (symb : Bool) (input : List Nat) : Except JErr HostValue :=
  if (skipWs input).isEmpty then .error .empty
  else if validUtf8 input = false then .error .utf8
  else
    match parseVal symb (2 * input.length + 2) input with
    | .error e => .error e
    | .ok (v, rest) =>
      if (skipWs rest).isEmpty then .ok v else .error .trailing

/-! ## Round-trip: well-formedness, recursion cost, helper lemmas -/

/-- A float host value is embedded by its printed token: well-formed when
the token is made of number bytes, starts like a number, and the engine
classifies it as floating point (finite values only - NaN and Infinity
have no number token). -/
def wfFloatTok (tok : List Nat) : Bool :=
  tok.all numByte &&
    (match tok.head? with
     | some b => (b == 45) || isDigit b
     | none => false) &&
    (checkNum tok == some NumClass.fltc)

/-- The key kind matches the symbolize-names setting. -/
def wfKey (symb : Bool) : JKey → Bool
  | .kstr _ => !symb
  | .ksym _ => symb

/-- Map keys are pairwise distinct (host hashes cannot hold duplicates). -/
def keysNodup (pairs : List (JKey × HostValue)) : Bool :=
  decide (pairs.map Prod.fst).Nodup

mutual

/-- Well-formed host values for the round-trip: integers fit the 64-bit
signed range (values beyond are mruby bigints, which Dump serializes as
quoted strings), float tokens are well-formed finite number tokens, map
keys match the symbolize-names setting and are distinct at every depth. -/
def wfVal (symb : Bool) : HostValue → Bool
  | .null => true
  | .bool _ => true
  | .int n => fitsInt64 n
  | .flt tok => wfFloatTok tok
  | .str _ => true
  | .arr items => wfItems symb items
  | .map pairs => wfPairs symb pairs && keysNodup pairs

/-- `wfVal` over sequence elements. -/
def wfItems (symb : Bool) : List HostValue → Bool
  | [] => true
  | v :: rest => wfVal symb v && wfItems symb rest

/-- `wfVal` over map pairs, with matching key kinds. -/
def wfPairs (symb : Bool) : List (JKey × HostValue) → Bool
  | [] => true
  | (k, v) :: rest => wfKey symb k && wfVal symb v && wfPairs symb rest

end

mutual

/-- Recursion-fuel cost of parsing a value's serialization (an upper bound
on the parser's nesting frames). -/
def cost : HostValue → Nat
  | .arr items => 1 + costItems items
  | .map pairs => 1 + costPairs pairs
  | _ => 1

/-- Fuel cost of the element tail of an array. -/
def costItems : List HostValue → Nat
  | [] => 1
  | v :: rest => 1 + cost v + costItems rest

/-- Fuel cost of the member tail of an object. -/
def costPairs : List (JKey × HostValue) → Nat
  | [] => 1
  | (_, v) :: rest => 2 + cost v + costPairs rest

end

/-- The bytes after a serialized value inside a dump: nothing, or a comma,
closing bracket or closing brace. -/
def delimOk (r : List Nat) : Bool :=
  match r with
  | [] => true
  | b :: _ => b = 44 || b = 93 || b = 125

/-- Helper: `takeWhile`/`dropWhile` pass over a prefix whose bytes all
satisfy the predicate. -/
theorem takeWhile_dropWhile_append (p : Nat → Bool) :
    ∀ l r : List Nat, l.all p = true →
      (l ++ r).takeWhile p = l ++ r.takeWhile p ∧
      (l ++ r).dropWhile p = r.dropWhile p := by
  intro l
  induction l with
  | nil =>
    intro r _
    simp
  | cons b rest ih =>
    intro r hall
    simp only [List.all_cons, Bool.and_eq_true] at hall
    obtain ⟨hb, hrest⟩ := hall
    obtain ⟨ht, hd⟩ := ih r hrest
    constructor
    · simp only [List.cons_append, List.takeWhile_cons, hb, if_true, ht]
    · simp only [List.cons_append, List.dropWhile_cons, hb, if_true, hd]

/-- Helper: `skipWs` does not consume a non-whitespace head. -/
theorem skipWs_cons (b : Nat) (r : List Nat) (h : isWs b = false) :
    skipWs (b :: r) = b :: r := by
  simp [skipWs, List.dropWhile_cons, h]

/-- Helper: exhausted value gives no digit bytes. -/
theorem natToBytesAux_zero (f : Nat) : natToBytesAux f 0 = [] := by
  cases f <;> rfl

/-- Helper: appending one digit multiplies the value by ten and adds it. -/
theorem digitsVal_append_digit (L : List Nat) (d : Nat) :
    digitsVal (L ++ [d]) = digitsVal L * 10 + (d - 48) := by
  unfold digitsVal
  rw [List.foldl_append]
  rfl

/-- Helper: with enough fuel, the digit printer is exact: it prints the
decimal digits of a positive number, most significant first, without a
leading zero. -/
theorem natToBytesAux_spec (f : Nat) : ∀ n, 0 < n → n < 10 ^ f →
    digitsVal (natToBytesAux f n) = n ∧
    (natToBytesAux f n).all isDigit = true ∧
    natToBytesAux f n ≠ [] ∧
    (natToBytesAux f n).head? ≠ some 48 := by
  induction f with
  | zero =>
    intro n hpos hlt
    simp only [pow_zero] at hlt
    omega
  | succ f ih =>
    intro n hpos hlt
    obtain ⟨m, rfl⟩ : ∃ m, n = m + 1 := ⟨n - 1, by omega⟩
    have hunf : natToBytesAux (f + 1) (m + 1) =
        natToBytesAux f ((m + 1) / 10) ++ [48 + (m + 1) % 10] := rfl
    rw [hunf]
    by_cases hsmall : m + 1 < 10
    · rw [Nat.div_eq_of_lt hsmall, natToBytesAux_zero]
      refine ⟨?_, ?_, by simp, ?_⟩
      · simp only [List.nil_append, digitsVal, List.foldl_cons, List.foldl_nil]
        omega
      · simp only [List.nil_append, List.all_cons, List.all_nil, Bool.and_true, isDigit,
          Bool.and_eq_true, decide_eq_true_eq]
        omega
      · simp only [List.nil_append, List.head?_cons, ne_eq, Option.some.injEq]
        omega
    · have hdiv_pos : 0 < (m + 1) / 10 := Nat.div_pos (by omega) (by omega)
      have hdiv_lt : (m + 1) / 10 < 10 ^ f := by
        rw [Nat.div_lt_iff_lt_mul (by omega)]
        calc m + 1 < 10 ^ (f + 1) := hlt
        _ = 10 ^ f * 10 := by ring
      obtain ⟨hval, hall, hne, hhead⟩ := ih ((m + 1) / 10) hdiv_pos hdiv_lt
      refine ⟨?_, ?_, by simp, ?_⟩
      · rw [digitsVal_append_digit, hval]
        omega
      · rw [List.all_append, hall]
        simp [isDigit]
        omega
      · obtain ⟨x, xs, hx⟩ : ∃ x xs, natToBytesAux f ((m + 1) / 10) = x :: xs := by
          cases hxx : natToBytesAux f ((m + 1) / 10) with
          | nil => exact absurd hxx hne
          | cons x xs => exact ⟨x, xs, rfl⟩
        rw [hx]
        rw [hx] at hhead
        simpa using hhead

/-- Helper: the decimal printer is exact: value, digits, nonemptiness and
the leading-zero rule. -/
theorem natToBytes_spec (n : Nat) :
    digitsVal (natToBytes n) = n ∧
    (natToBytes n).all isDigit = true ∧
    natToBytes n ≠ [] ∧
    digitsOk (natToBytes n) = true := by
  unfold natToBytes
  by_cases h0 : n = 0
  · subst h0
    refine ⟨by simp [digitsVal], by simp [isDigit], by simp, by simp [digitsOk, isDigit]⟩
  · rw [if_neg h0]
    have hlt : n < 10 ^ (n + 1) := by
      calc n < 10 ^ n := Nat.lt_pow_self (by omega) n
      _ ≤ 10 ^ (n + 1) := Nat.pow_le_pow_right (by omega) (by omega)
    obtain ⟨hval, hall, hne, hhead⟩ := natToBytesAux_spec (n + 1) n (by omega) hlt
    refine ⟨hval, hall, hne, ?_⟩
    unfold digitsOk
    rw [hall]
    have h1 : (natToBytesAux (n + 1) n).isEmpty = false := by
      cases hxx : natToBytesAux (n + 1) n with
      | nil => exact absurd hxx hne
      | cons x xs => rfl
    have h2 : ((natToBytesAux (n + 1) n).head? != some 48) = true := by
      cases hxx : (natToBytesAux (n + 1) n).head? with
      | none => rfl
      | some x =>
        rw [hxx] at hhead
        simp only [bne_iff_ne, ne_eq, Option.some.injEq]
        intro hc
        exact hhead (by rw [hc])
    rw [h1, h2]
    rfl

/-- Helper: hex digits printed by the escaper read back as their value. -/
theorem hexVal_hexDigit (d : Nat) (h : d < 16) : hexVal (hexDigit d) = some d := by
  unfold hexDigit hexVal
  by_cases h10 : d < 10
  · rw [if_pos h10, if_pos (by omega)]
    congr 1
    omega
  · rw [if_neg h10, if_neg (by omega), if_pos (by omega)]
    congr 1
    omega

/-- Helper: a printed hex digit is never a quote or backslash. -/
theorem hexDigit_ne (d : Nat) : hexDigit d ≠ 34 ∧ hexDigit d ≠ 92 := by
  unfold hexDigit
  split <;> omega

/-- Helper: ASCII code points encode to themselves. -/
theorem utf8Encode_small (b : Nat) (h : b < 128) : utf8Encode b = [b] := by
  unfold utf8Encode
  rw [if_pos h]

/-- Helper: the string tokenizer passes over an ordinary byte. -/
theorem splitStringTok_cons_plain (f b : Nat) (l : List Nat)
    (hb34 : b ≠ 34) (hb92 : b ≠ 92) :
    splitStringTok (f + 1) (b :: l) =
      (splitStringTok f l).map (fun p => (b :: p.1, p.2)) := by
  simp only [splitStringTok]
  rw [if_neg hb34, if_neg hb92]

/-- Helper: the string tokenizer keeps an escape pair together. -/
theorem splitStringTok_cons_esc (f e : Nat) (l : List Nat) :
    splitStringTok (f + 1) (92 :: e :: l) =
      (splitStringTok f l).map (fun p => (92 :: e :: p.1, p.2)) := by
  simp only [splitStringTok]
  rw [if_neg (by decide)]
  simp

/-- Helper: the string tokenizer recovers exactly the escaped content and
stops at the closing quote. -/
theorem splitStringTok_escape (s : List Nat) : ∀ f rest,
    (escapeBytes s).length + 1 ≤ f →
    splitStringTok f (escapeBytes s ++ 34 :: rest) = some (escapeBytes s, rest) := by
  induction s with
  | nil =>
    intro f rest hf
    obtain ⟨f1, rfl⟩ : ∃ f1, f = f1 + 1 := ⟨f - 1, by omega⟩
    simp [escapeBytes, splitStringTok]
  | cons b s ih =>
    intro f rest hf
    have hlen : (escapeBytes (b :: s)).length =
        (escapeByte b).length + (escapeBytes s).length := by
      show (escapeByte b ++ escapeBytes s).length = _
      simp
    by_cases hq : b = 34
    · subst hq
      obtain ⟨g, rfl⟩ : ∃ g, f = g + 1 := ⟨f - 1, by omega⟩
      have he : escapeBytes (34 :: s) ++ 34 :: rest =
          92 :: 34 :: (escapeBytes s ++ 34 :: rest) := rfl
      rw [he, splitStringTok_cons_esc, ih g rest (by
        rw [hlen] at hf
        simp [escapeByte] at hf
        omega)]
      rfl
    · by_cases hbs : b = 92
      · subst hbs
        obtain ⟨g, rfl⟩ : ∃ g, f = g + 1 := ⟨f - 1, by omega⟩
        have he : escapeBytes (92 :: s) ++ 34 :: rest =
            92 :: 92 :: (escapeBytes s ++ 34 :: rest) := rfl
        rw [he, splitStringTok_cons_esc, ih g rest (by
          rw [hlen] at hf
          simp [escapeByte] at hf
          omega)]
        rfl
      · by_cases hb8 : b = 8
        · subst hb8
          obtain ⟨g, rfl⟩ : ∃ g, f = g + 1 := ⟨f - 1, by omega⟩
          have he : escapeBytes (8 :: s) ++ 34 :: rest =
              92 :: 98 :: (escapeBytes s ++ 34 :: rest) := rfl
          rw [he, splitStringTok_cons_esc, ih g rest (by
            rw [hlen] at hf
            simp [escapeByte] at hf
            omega)]
          rfl
        · by_cases hb12 : b = 12
          · subst hb12
            obtain ⟨g, rfl⟩ : ∃ g, f = g + 1 := ⟨f - 1, by omega⟩
            have he : escapeBytes (12 :: s) ++ 34 :: rest =
                92 :: 102 :: (escapeBytes s ++ 34 :: rest) := rfl
            rw [he, splitStringTok_cons_esc, ih g rest (by
              rw [hlen] at hf
              simp [escapeByte] at hf
              omega)]
            rfl
          · by_cases hb10 : b = 10
            · subst hb10
              obtain ⟨g, rfl⟩ : ∃ g, f = g + 1 := ⟨f - 1, by omega⟩
              have he : escapeBytes (10 :: s) ++ 34 :: rest =
                  92 :: 110 :: (escapeBytes s ++ 34 :: rest) := rfl
              rw [he, splitStringTok_cons_esc, ih g rest (by
                rw [hlen] at hf
                simp [escapeByte] at hf
                omega)]
              rfl
            · by_cases hb13 : b = 13
              · subst hb13
                obtain ⟨g, rfl⟩ : ∃ g, f = g + 1 := ⟨f - 1, by omega⟩
                have he : escapeBytes (13 :: s) ++ 34 :: rest =
                    92 :: 114 :: (escapeBytes s ++ 34 :: rest) := rfl
                rw [he, splitStringTok_cons_esc, ih g rest (by
                  rw [hlen] at hf
                  simp [escapeByte] at hf
                  omega)]
                rfl
              · by_cases hb9 : b = 9
                · subst hb9
                  obtain ⟨g, rfl⟩ : ∃ g, f = g + 1 := ⟨f - 1, by omega⟩
                  have he : escapeBytes (9 :: s) ++ 34 :: rest =
                      92 :: 116 :: (escapeBytes s ++ 34 :: rest) := rfl
                  rw [he, splitStringTok_cons_esc, ih g rest (by
                    rw [hlen] at hf
                    simp [escapeByte] at hf
                    omega)]
                  rfl
                · by_cases hctl : b < 32
                  · have hesc : escapeByte b =
                        [92, 117, 48, 48, hexDigit (b / 16), hexDigit (b % 16)] := by
                      unfold escapeByte
                      rw [if_neg hq, if_neg hbs, if_neg hb8, if_neg hb12, if_neg hb10,
                        if_neg hb13, if_neg hb9, if_pos hctl]
                    have he : escapeBytes (b :: s) ++ 34 :: rest =
                        92 :: 117 :: 48 :: 48 :: hexDigit (b / 16) :: hexDigit (b % 16) ::
                          (escapeBytes s ++ 34 :: rest) := by
                      show (escapeByte b ++ escapeBytes s) ++ 34 :: rest = _
                      rw [hesc]
                      rfl
                    have hlb : (escapeByte b).length = 6 := by rw [hesc]; rfl
                    obtain ⟨g, rfl⟩ : ∃ g, f = g + 5 := ⟨f - 5, by omega⟩
                    rw [he]
                    rw [show g + 5 = (g + 4) + 1 from rfl, splitStringTok_cons_esc]
                    rw [show g + 4 = (g + 3) + 1 from rfl,
                      splitStringTok_cons_plain _ 48 _ (by omega) (by omega)]
                    rw [show g + 3 = (g + 2) + 1 from rfl,
                      splitStringTok_cons_plain _ 48 _ (by omega) (by omega)]
                    rw [show g + 2 = (g + 1) + 1 from rfl,
                      splitStringTok_cons_plain _ (hexDigit (b / 16)) _
                        (hexDigit_ne _).1 (hexDigit_ne _).2]
                    rw [splitStringTok_cons_plain _ (hexDigit (b % 16)) _
                        (hexDigit_ne _).1 (hexDigit_ne _).2]
                    rw [ih g rest (by omega)]
                    simp only [Option.map_some']
                    congr 1
                    rw [show escapeBytes (b :: s) = escapeByte b ++ escapeBytes s from rfl,
                      hesc]
                    rfl
                  · have hesc : escapeByte b = [b] := by
                      unfold escapeByte
                      rw [if_neg hq, if_neg hbs, if_neg hb8, if_neg hb12, if_neg hb10,
                        if_neg hb13, if_neg hb9, if_neg hctl]
                    have he : escapeBytes (b :: s) ++ 34 :: rest =
                        b :: (escapeBytes s ++ 34 :: rest) := by
                      show (escapeByte b ++ escapeBytes s) ++ 34 :: rest = _
                      rw [hesc]
                      rfl
                    obtain ⟨g, rfl⟩ : ∃ g, f = g + 1 := ⟨f - 1, by omega⟩
                    rw [he, splitStringTok_cons_plain _ b _ hq hbs]
                    rw [ih g rest (by
                      rw [hlen, hesc] at hf
                      simp at hf
                      omega)]
                    simp only [Option.map_some']
                    congr 1
                    rw [show escapeBytes (b :: s) = escapeByte b ++ escapeBytes s from rfl,
                      hesc]
                    rfl

/-- Helper: the decoder reads a `\u00XX` control escape back to its byte. -/
theorem unescGo_u_escape (f cp : Nat) (hcp : cp < 32) (tail : List Nat) :
    unescGo (f + 1)
        (92 :: 117 :: 48 :: 48 :: hexDigit (cp / 16) :: hexDigit (cp % 16) :: tail) =
      (unescGo f tail).map (fun d => cp :: d) := by
  have hh : hex4 48 48 (hexDigit (cp / 16)) (hexDigit (cp % 16)) = some cp := by
    unfold hex4
    rw [show hexVal 48 = some 0 from rfl, hexVal_hexDigit (cp / 16) (by omega),
      hexVal_hexDigit (cp % 16) (by omega)]
    show some (((0 * 16 + 0) * 16 + cp / 16) * 16 + cp % 16) = some cp
    congr 1
    omega
  simp only [unescGo, show simpleEsc 117 = none from rfl, hh, if_true]
  rw [if_neg (by omega), if_neg (by omega)]
  simp only [utf8Encode_small cp (by omega), List.singleton_append]

/-- Helper: the decoder reads each escaped byte back to the original. -/
theorem unescGo_escapeByte (b f : Nat) (tail : List Nat) :
    unescGo (f + 1) (escapeByte b ++ tail) =
      (unescGo f tail).map (fun d => b :: d) := by
  by_cases hq : b = 34
  · subst hq
    rfl
  · by_cases hbs : b = 92
    · subst hbs
      rfl
    · by_cases hb8 : b = 8
      · subst hb8
        rfl
      · by_cases hb12 : b = 12
        · subst hb12
          rfl
        · by_cases hb10 : b = 10
          · subst hb10
            rfl
          · by_cases hb13 : b = 13
            · subst hb13
              rfl
            · by_cases hb9 : b = 9
              · subst hb9
                rfl
              · by_cases hctl : b < 32
                · have hesc : escapeByte b =
                      [92, 117, 48, 48, hexDigit (b / 16), hexDigit (b % 16)] := by
                    unfold escapeByte
                    rw [if_neg hq, if_neg hbs, if_neg hb8, if_neg hb12, if_neg hb10,
                      if_neg hb13, if_neg hb9, if_pos hctl]
                  rw [hesc]
                  exact unescGo_u_escape f b hctl tail
                · have hesc : escapeByte b = [b] := by
                    unfold escapeByte
                    rw [if_neg hq, if_neg hbs, if_neg hb8, if_neg hb12, if_neg hb10,
                      if_neg hb13, if_neg hb9, if_neg hctl]
                  rw [hesc, List.singleton_append]
                  simp only [unescGo]
                  rw [if_neg hbs, if_neg (by omega)]

/-- Helper: decoding inverts escaping. -/
theorem unescGo_escapeBytes (s : List Nat) : ∀ f, s.length ≤ f →
    unescGo f (escapeBytes s) = some s := by
  induction s with
  | nil =>
    intro f _
    cases f <;> rfl
  | cons b s ih =>
    intro f hf
    obtain ⟨g, rfl⟩ : ∃ g, f = g + 1 := ⟨f - 1, by
      have h1 : 1 ≤ f := le_trans (by simp) hf
      omega⟩
    show unescGo (g + 1) (escapeByte b ++ escapeBytes s) = _
    rw [unescGo_escapeByte, ih g (by
      simp only [List.length_cons] at hf
      omega)]
    rfl

/-- Helper: escaping never shortens a byte. -/
theorem escapeByte_length_pos (b : Nat) : 1 ≤ (escapeByte b).length := by
  unfold escapeByte
  repeat' split
  all_goals simp

/-- Helper: escaping never shortens a string. -/
theorem escapeBytes_length_ge (s : List Nat) : s.length ≤ (escapeBytes s).length := by
  induction s with
  | nil => simp [escapeBytes]
  | cons b s ih =>
    show (b :: s).length ≤ (escapeByte b ++ escapeBytes s).length
    have h1 := escapeByte_length_pos b
    simp only [List.length_cons, List.length_append]
    omega

/-- Helper: the engine decoder inverts the encoder's escaping at the
natural fuel. -/
theorem unescapeContent_escapeBytes (s : List Nat) :
    unescapeContent (escapeBytes s) = some s := by
  unfold unescapeContent
  exact unescGo_escapeBytes s _ (escapeBytes_length_ge s)

/-- Helper: `takeWhile`/`dropWhile` on a list whose bytes all satisfy the
predicate. -/
theorem takeWhile_all (p : Nat → Bool) (l : List Nat) (h : l.all p = true) :
    l.takeWhile p = l ∧ l.dropWhile p = [] := by
  have := takeWhile_dropWhile_append p l [] h
  simpa using this

/-- Helper: a digit run is made of number bytes. -/
theorem all_isDigit_numByte (l : List Nat) (h : l.all isDigit = true) :
    l.all numByte = true := by
  rw [List.all_eq_true] at h ⊢
  intro b hb
  have := h b hb
  unfold numByte
  rw [this]
  rfl

/-- Helper: a delimiter (or nothing) stops the number tokenizer. -/
theorem delim_stops_num (r : List Nat) (h : delimOk r = true) :
    r.takeWhile numByte = [] ∧ r.dropWhile numByte = r := by
  cases r with
  | nil => simp
  | cons b t =>
    simp only [delimOk, Bool.or_eq_true, decide_eq_true_eq] at h
    have hb : numByte b = false := by
      rcases h with (h | h) | h <;> subst h <;> decide
    simp [List.takeWhile_cons, List.dropWhile_cons, hb]

/-- Helper: the serialized integer text of an in-range value. -/
theorem intToBytes_cases (n : Int) :
    (n < 0 ∧ intToBytes n = 45 :: natToBytes n.natAbs) ∨
    (0 ≤ n ∧ intToBytes n = natToBytes n.natAbs) := by
  unfold intToBytes
  by_cases hneg : n < 0
  · exact Or.inl ⟨hneg, by rw [if_pos hneg]⟩
  · refine Or.inr ⟨by omega, ?_⟩
    rw [if_neg hneg]
    congr 1
    omega

/-- Helper: the integer text is made of number bytes. -/
theorem intToBytes_all_numByte (n : Int) : (intToBytes n).all numByte = true := by
  obtain ⟨hval, hall, hne, hok⟩ := natToBytes_spec n.natAbs
  rcases intToBytes_cases n with ⟨_, he⟩ | ⟨_, he⟩ <;> rw [he]
  · simp only [List.all_cons, Bool.and_eq_true]
    exact ⟨rfl, all_isDigit_numByte _ hall⟩
  · exact all_isDigit_numByte _ hall

/-- Helper: the number grammar classifies serialized integer text as an
integer with its sign and digit run. -/
theorem checkNum_intToBytes (n : Int) :
    checkNum (intToBytes n) = some (.intc (decide (n < 0)) (natToBytes n.natAbs)) := by
  obtain ⟨hval, hall, hne, hok⟩ := natToBytes_spec n.natAbs
  obtain ⟨ht, hd⟩ := takeWhile_all isDigit (natToBytes n.natAbs) hall
  rcases intToBytes_cases n with ⟨hneg, he⟩ | ⟨hpos, he⟩ <;> rw [he]
  · simp [checkNum, ht, hd, hok, decide_eq_true hneg]
  · obtain ⟨x, xs, hx⟩ : ∃ x xs, natToBytes n.natAbs = x :: xs := by
      cases hxx : natToBytes n.natAbs with
      | nil => exact absurd hxx hne
      | cons x xs => exact ⟨x, xs, rfl⟩
    have hxdig : isDigit x = true := by
      rw [hx] at hall
      simp only [List.all_cons, Bool.and_eq_true] at hall
      exact hall.1
    have hx45 : x ≠ 45 := by
      simp only [isDigit, Bool.and_eq_true, decide_eq_true_eq] at hxdig
      omega
    rw [hx] at ht hd hok ⊢
    simp [checkNum, ht, hd, hok, hx45, decide_eq_false (show ¬ n < 0 by omega)]

/-- Helper: the number converter reads serialized in-range integer text
back to its value. -/
theorem parseNumVal_intToBytes (n : Int) (h64 : fitsInt64 n = true) :
    parseNumVal (intToBytes n) = .ok (.int n) := by
  unfold parseNumVal
  rw [checkNum_intToBytes n]
  obtain ⟨hval, _, _, _⟩ := natToBytes_spec n.natAbs
  simp only [fitsInt64, Bool.and_eq_true, decide_eq_true_eq] at h64
  by_cases hneg : n < 0
  · simp only [decide_eq_true hneg, hval, if_true]
    rw [if_pos (by constructor <;> omega)]
    congr 2
    omega
  · simp only [decide_eq_false hneg, hval, Bool.false_eq_true, if_false]
    rw [if_pos (by constructor <;> omega)]
    congr 2
    omega

/-- Helper: the number branch of the parser reads a serialized in-range
integer followed by a delimiter. -/
theorem parseNumber_intToBytes (n : Int) (h64 : fitsInt64 n = true)
    (rest : List Nat) (hdelim : delimOk rest = true) :
    parseNumber (intToBytes n ++ rest) = .ok (.int n, rest) := by
  unfold parseNumber
  obtain ⟨ht, hd⟩ := takeWhile_dropWhile_append numByte (intToBytes n) rest
    (intToBytes_all_numByte n)
  obtain ⟨htr, hdr⟩ := delim_stops_num rest hdelim
  rw [ht, hd, htr, hdr, List.append_nil, parseNumVal_intToBytes n h64]

/-- Helper: the number branch of the parser reads a well-formed float
token followed by a delimiter back as that token. -/
theorem parseNumber_flt (tok : List Nat) (hwf : wfFloatTok tok = true)
    (rest : List Nat) (hdelim : delimOk rest = true) :
    parseNumber (tok ++ rest) = .ok (.flt tok, rest) := by
  simp only [wfFloatTok, Bool.and_eq_true] at hwf
  obtain ⟨⟨hall, _⟩, hcls⟩ := hwf
  have hcls' : checkNum tok = some NumClass.fltc := by
    rwa [beq_iff_eq] at hcls
  unfold parseNumber
  obtain ⟨ht, hd⟩ := takeWhile_dropWhile_append numByte tok rest hall
  obtain ⟨htr, hdr⟩ := delim_stops_num rest hdelim
  rw [ht, hd, htr, hdr, List.append_nil]
  unfold parseNumVal
  rw [hcls']

/-- Helper: a serialized value begins with a byte that is neither
whitespace nor a closing delimiter nor a comma. -/
theorem encode_head_facts (symb : Bool) (v : HostValue) (hwf : wfVal symb v = true) :
    ∃ b t, json_encode v = b :: t ∧ isWs b = false ∧ b ≠ 93 ∧ b ≠ 125 ∧ b ≠ 44 := by
  cases v with
  | null => exact ⟨110, _, rfl, by decide, by decide, by decide, by decide⟩
  | bool b =>
    cases b with
    | true => exact ⟨116, _, rfl, by decide, by decide, by decide, by decide⟩
    | false => exact ⟨102, _, rfl, by decide, by decide, by decide, by decide⟩
  | int n =>
    have h64 : fitsInt64 n = true := by simpa [wfVal] using hwf
    have he : json_encode (.int n) = intToBytes n := by
      simp [json_encode, h64]
    rcases intToBytes_cases n with ⟨_, hi⟩ | ⟨_, hi⟩
    · exact ⟨45, _, by rw [he, hi], by decide, by decide, by decide, by decide⟩
    · obtain ⟨_, hall, hne, _⟩ := natToBytes_spec n.natAbs
      obtain ⟨x, xs, hx⟩ : ∃ x xs, natToBytes n.natAbs = x :: xs := by
        cases hxx : natToBytes n.natAbs with
        | nil => exact absurd hxx hne
        | cons x xs => exact ⟨x, xs, rfl⟩
      have hxdig : isDigit x = true := by
        rw [hx] at hall
        simp only [List.all_cons, Bool.and_eq_true] at hall
        exact hall.1
      simp only [isDigit, Bool.and_eq_true, decide_eq_true_eq] at hxdig
      refine ⟨x, xs, by rw [he, hi, hx], ?_, by omega, by omega, by omega⟩
      simp only [isWs, Bool.or_eq_false_iff, decide_eq_false_iff_not]
      omega
  | flt tok =>
    have hwf' : wfFloatTok tok = true := by simpa [wfVal] using hwf
    simp only [wfFloatTok, Bool.and_eq_true] at hwf'
    obtain ⟨⟨_, hhead⟩, _⟩ := hwf'
    cases tok with
    | nil => simp at hhead
    | cons x xs =>
      simp only [List.head?_cons, Bool.or_eq_true, beq_iff_eq] at hhead
      have hx : x = 45 ∨ (48 ≤ x ∧ x ≤ 57) := by
        rcases hhead with h | h
        · exact Or.inl h
        · simp only [isDigit, Bool.and_eq_true, decide_eq_true_eq] at h
          exact Or.inr h
      refine ⟨x, xs, rfl, ?_, by omega, by omega, by omega⟩
      simp only [isWs, Bool.or_eq_false_iff, decide_eq_false_iff_not]
      omega
  | str s => exact ⟨34, _, rfl, by decide, by decide, by decide, by decide⟩
  | arr items => exact ⟨91, _, rfl, by decide, by decide, by decide, by decide⟩
  | map pairs => exact ⟨123, _, rfl, by decide, by decide, by decide, by decide⟩

/-- Helper: `mrb_hash_set` with a fresh key appends the pair. -/
theorem mrb_hash_set_fresh (acc : List (JKey × HostValue)) (k : JKey) (v : HostValue)
    (h : ∀ p ∈ acc, p.1 ≠ k) : mrb_hash_set acc k v = acc ++ [(k, v)] := by
  unfold mrb_hash_set
  rw [if_neg (by
    simp only [List.any_eq_true, beq_iff_eq, not_exists]
    intro p
    rw [not_and]
    exact h p)]

/-- Helper: with pairwise distinct keys (across accumulator and input) the
hash fold is a plain append. -/
theorem buildHashGo_nodup : ∀ (l acc : List (JKey × HostValue)),
    (acc.map Prod.fst ++ l.map Prod.fst).Nodup → buildHashGo acc l = acc ++ l := by
  intro l
  induction l with
  | nil =>
    intro acc _
    simp [buildHashGo]
  | cons p rest ih =>
    intro acc h
    obtain ⟨k, v⟩ := p
    have hk : ∀ q ∈ acc, q.1 ≠ k := by
      intro q hq hqk
      rcases List.nodup_append.mp h with ⟨_, _, hdisj⟩
      exact hdisj (hqk ▸ List.mem_map_of_mem Prod.fst hq)
        (by simp)
    show buildHashGo (mrb_hash_set acc k v) rest = acc ++ (k, v) :: rest
    rw [mrb_hash_set_fresh acc k v hk]
    rw [ih (acc ++ [(k, v)]) (by
      simpa [List.map_append, List.append_assoc] using h)]
    simp

/-- Helper: with distinct keys, building the host hash keeps the parsed
pairs as they are. -/
theorem buildHash_nodup (l : List (JKey × HostValue)) (h : keysNodup l = true) :
    buildHash l = l := by
  unfold buildHash
  rw [buildHashGo_nodup l [] (by
    simp only [keysNodup, decide_eq_true_eq] at h
    simpa using h)]
  simp

/-- Helper: what follows a serialized array element is a delimiter. -/
theorem delim_items (vs : List HostValue) (rest : List Nat) :
    delimOk (json_encode_items_rest vs ++ 93 :: rest) = true := by
  cases vs with
  | nil => rfl
  | cons v vs => rfl

/-- Helper: what follows a serialized object member is a delimiter. -/
theorem delim_pairs (ps : List (JKey × HostValue)) (rest : List Nat) :
    delimOk (json_encode_pairs_rest ps ++ 125 :: rest) = true := by
  cases ps with
  | nil => rfl
  | cons p ps =>
    obtain ⟨k, v⟩ := p
    rfl

/-- Helper: a serialized key has at least the two quote bytes. -/
theorem json_encode_key_length (k : JKey) : 2 ≤ (json_encode_key k).length := by
  cases k <;> simp [json_encode_key]

mutual

/-- Helper: the parse cost of a well-formed value is covered by twice its
serialized length. -/
theorem cost_le_enc (symb : Bool) (v : HostValue) (hwf : wfVal symb v = true) :
    cost v ≤ 2 * (json_encode v).length := by
  cases v with
  | null => simp [cost, json_encode]
  | bool b => cases b <;> simp [cost, json_encode]
  | int n =>
    obtain ⟨b, t, he, _, _, _, _⟩ := encode_head_facts symb (.int n) hwf
    rw [he]
    simp only [cost, List.length_cons]
    omega
  | flt tok =>
    obtain ⟨b, t, he, _, _, _, _⟩ := encode_head_facts symb (.flt tok) hwf
    rw [he]
    simp only [cost, List.length_cons]
    omega
  | str s =>
    simp only [cost, json_encode, List.length_cons, List.length_append]
    omega
  | arr items =>
    cases items with
    | nil => simp [cost, costItems, json_encode, json_encode_items]
    | cons v vs =>
      have hw : wfVal symb v = true ∧ wfItems symb vs = true := by
        have h : wfItems symb (v :: vs) = true := by simpa [wfVal] using hwf
        simpa [wfItems, Bool.and_eq_true] using h
      have h1 := cost_le_enc symb v hw.1
      have h2 := costItems_le_enc symb vs hw.2
      simp only [cost, costItems, json_encode, json_encode_items, List.length_cons,
        List.length_append]
      omega
  | map pairs =>
    cases pairs with
    | nil => simp [cost, costPairs, json_encode, json_encode_pairs]
    | cons p ps =>
      obtain ⟨k, v, rfl⟩ : ∃ k v, p = (k, v) := ⟨p.1, p.2, rfl⟩
      have hw : wfVal symb v = true ∧ wfPairs symb ps = true := by
        have h : wfPairs symb ((k, v) :: ps) = true := by
          have h2 : (wfPairs symb ((k, v) :: ps) && keysNodup ((k, v) :: ps)) = true := by
            simpa [wfVal] using hwf
          exact (Bool.and_eq_true .. ▸ h2).1
        have h3 : (wfKey symb k && wfVal symb v && wfPairs symb ps) = true := by
          simpa [wfPairs] using h
        simp only [Bool.and_eq_true] at h3
        exact ⟨h3.1.2, h3.2⟩
      have h1 := cost_le_enc symb v hw.1
      have h2 := costPairs_le_enc symb ps hw.2
      have hkl := json_encode_key_length k
      simp only [cost, costPairs, json_encode, json_encode_pairs, List.length_cons,
        List.length_append]
      omega
termination_by sizeOf v
decreasing_by
all_goals subst_vars
all_goals decreasing_tactic

/-- Helper: the parse cost of an array tail is covered by twice its
serialized length plus two. -/
theorem costItems_le_enc (symb : Bool) (l : List HostValue)
    (hwf : wfItems symb l = true) :
    costItems l ≤ 2 * (json_encode_items_rest l).length + 2 := by
  cases l with
  | nil => simp [costItems, json_encode_items_rest]
  | cons v vs =>
    have hw : wfVal symb v = true ∧ wfItems symb vs = true := by
      simpa [wfItems, Bool.and_eq_true] using hwf
    have h1 := cost_le_enc symb v hw.1
    have h2 := costItems_le_enc symb vs hw.2
    simp only [costItems, json_encode_items_rest, List.length_cons, List.length_append]
    omega
termination_by sizeOf l
decreasing_by
all_goals subst_vars
all_goals decreasing_tactic

/-- Helper: the parse cost of an object tail is covered by twice its
serialized length plus two. -/
theorem costPairs_le_enc (symb : Bool) (ps : List (JKey × HostValue))
    (hwf : wfPairs symb ps = true) :
    costPairs ps ≤ 2 * (json_encode_pairs_rest ps).length + 2 := by
  cases ps with
  | nil => simp [costPairs, json_encode_pairs_rest]
  | cons p rest =>
    obtain ⟨k, v, rfl⟩ : ∃ k v, p = (k, v) := ⟨p.1, p.2, rfl⟩
    have hw : wfVal symb v = true ∧ wfPairs symb rest = true := by
      have h3 : (wfKey symb k && wfVal symb v && wfPairs symb rest) = true := by
        simpa [wfPairs] using hwf
      simp only [Bool.and_eq_true] at h3
      exact ⟨h3.1.2, h3.2⟩
    have h1 := cost_le_enc symb v hw.1
    have h2 := costPairs_le_enc symb rest hw.2
    have hkl := json_encode_key_length k
    simp only [costPairs, json_encode_pairs_rest, List.length_cons, List.length_append]
    omega
termination_by sizeOf ps
decreasing_by
all_goals subst_vars
all_goals decreasing_tactic

end

mutual

/-- Helper: parsing the serialization of a well-formed value (with enough
fuel and a delimiter behind it) returns exactly that value. -/
theorem rt_val (symb : Bool) (v : HostValue) (hwf : wfVal symb v = true) :
    ∀ f rest, cost v ≤ f → delimOk rest = true →
      parseVal symb f (json_encode v ++ rest) = .ok (v, rest) := by
  intro f rest hf hd
  cases v with
  | null =>
    obtain ⟨f1, rfl⟩ : ∃ f1, f = f1 + 1 := ⟨f - 1, by
      have h1 : 1 ≤ f := by simpa [cost] using hf
      omega⟩
    show parseVal symb (f1 + 1) (110 :: 117 :: 108 :: 108 :: rest) = _
    have hs : skipWs (110 :: 117 :: 108 :: 108 :: rest) =
        110 :: 117 :: 108 :: 108 :: rest := skipWs_cons _ _ (by decide)
    simp [parseVal, hs]
  | bool b =>
    obtain ⟨f1, rfl⟩ : ∃ f1, f = f1 + 1 := ⟨f - 1, by
      have h1 : 1 ≤ f := by simpa [cost] using hf
      omega⟩
    cases b with
    | true =>
      show parseVal symb (f1 + 1) (116 :: 114 :: 117 :: 101 :: rest) = _
      have hs : skipWs (116 :: 114 :: 117 :: 101 :: rest) =
          116 :: 114 :: 117 :: 101 :: rest := skipWs_cons _ _ (by decide)
      simp [parseVal, hs]
    | false =>
      show parseVal symb (f1 + 1) (102 :: 97 :: 108 :: 115 :: 101 :: rest) = _
      have hs : skipWs (102 :: 97 :: 108 :: 115 :: 101 :: rest) =
          102 :: 97 :: 108 :: 115 :: 101 :: rest := skipWs_cons _ _ (by decide)
      simp [parseVal, hs]
  | int n =>
    have h64 : fitsInt64 n = true := by simpa [wfVal] using hwf
    have he : json_encode (.int n) = intToBytes n := by simp [json_encode, h64]
    obtain ⟨f1, rfl⟩ : ∃ f1, f = f1 + 1 := ⟨f - 1, by
      have h1 : 1 ≤ f := by simpa [cost] using hf
      omega⟩
    obtain ⟨x, xs, hx, hws, h93, h125, h44⟩ := encode_head_facts symb (.int n) hwf
    have hx' : intToBytes n = x :: xs := by rw [← he, hx]
    have hxn : x = 45 ∨ (48 ≤ x ∧ x ≤ 57) := by
      rcases intToBytes_cases n with ⟨_, hi⟩ | ⟨_, hi⟩
      · rw [hi] at hx'
        exact Or.inl (List.cons.injEq .. ▸ hx').1.symm
      · obtain ⟨_, hall, _, _⟩ := natToBytes_spec n.natAbs
        rw [hi] at hx'
        rw [hx'] at hall
        simp only [List.all_cons, Bool.and_eq_true] at hall
        have := hall.1
        simp only [isDigit, Bool.and_eq_true, decide_eq_true_eq] at this
        exact Or.inr this
    rw [he, hx', List.cons_append]
    have hs : skipWs (x :: (xs ++ rest)) = x :: (xs ++ rest) := skipWs_cons _ _ hws
    simp only [parseVal, hs]
    rw [if_neg (by omega), if_neg (by omega), if_neg (by omega), if_neg (by omega),
      if_neg (by omega), if_neg (by omega),
      if_pos (show (decide (x = 45) || isDigit x) = true by
        rcases hxn with h | h
        · simp [h]
        · simp [isDigit]
          omega)]
    rw [← List.cons_append, ← hx', parseNumber_intToBytes n h64 rest hd]
  | flt tok =>
    have hwf' : wfFloatTok tok = true := by simpa [wfVal] using hwf
    obtain ⟨f1, rfl⟩ : ∃ f1, f = f1 + 1 := ⟨f - 1, by
      have h1 : 1 ≤ f := by simpa [cost] using hf
      omega⟩
    obtain ⟨x, xs, hx, hws, h93, h125, h44⟩ := encode_head_facts symb (.flt tok) hwf
    have hx' : tok = x :: xs := hx
    have hxn : x = 45 ∨ (48 ≤ x ∧ x ≤ 57) := by
      simp only [wfFloatTok, Bool.and_eq_true] at hwf'
      obtain ⟨⟨_, hhead⟩, _⟩ := hwf'
      rw [hx'] at hhead
      simp only [List.head?_cons, Bool.or_eq_true, beq_iff_eq] at hhead
      rcases hhead with h | h
      · exact Or.inl h
      · simp only [isDigit, Bool.and_eq_true, decide_eq_true_eq] at h
        exact Or.inr h
    show parseVal symb (f1 + 1) (tok ++ rest) = _
    rw [hx', List.cons_append]
    have hs : skipWs (x :: (xs ++ rest)) = x :: (xs ++ rest) := skipWs_cons _ _ hws
    simp only [parseVal, hs]
    rw [if_neg (by omega), if_neg (by omega), if_neg (by omega), if_neg (by omega),
      if_neg (by omega), if_neg (by omega),
      if_pos (show (decide (x = 45) || isDigit x) = true by
        rcases hxn with h | h
        · simp [h]
        · simp [isDigit]
          omega)]
    rw [← List.cons_append, ← hx', parseNumber_flt tok hwf' rest hd]
  | str s =>
    obtain ⟨f1, rfl⟩ : ∃ f1, f = f1 + 1 := ⟨f - 1, by
      have h1 : 1 ≤ f := by simpa [cost] using hf
      omega⟩
    have hnorm : json_encode (.str s) ++ rest = 34 :: (escapeBytes s ++ 34 :: rest) := by
      simp [json_encode]
    rw [hnorm]
    have hs : skipWs (34 :: (escapeBytes s ++ 34 :: rest)) =
        34 :: (escapeBytes s ++ 34 :: rest) := skipWs_cons _ _ (by decide)
    simp only [parseVal, hs]
    rw [if_neg (by decide), if_neg (by decide), if_neg (by decide), if_pos (by trivial)]
    rw [splitStringTok_escape s _ rest (by
      simp only [List.length_append, List.length_cons]
      omega)]
    simp only [unescapeContent_escapeBytes s]
  | arr items =>
    cases items with
    | nil =>
      obtain ⟨f1, rfl⟩ : ∃ f1, f = f1 + 1 := ⟨f - 1, by
        simp [cost, costItems] at hf
        omega⟩
      have hnorm : json_encode (.arr []) ++ rest = 91 :: 93 :: rest := by
        simp [json_encode, json_encode_items]
      rw [hnorm]
      have hs : skipWs (91 :: 93 :: rest) = 91 :: 93 :: rest :=
        skipWs_cons _ _ (by decide)
      have hs2 : skipWs (93 :: rest) = 93 :: rest := skipWs_cons _ _ (by decide)
      simp only [parseVal, hs]
      rw [if_neg (by decide), if_neg (by decide), if_neg (by decide),
        if_neg (by decide), if_pos (by trivial)]
      simp [hs2]
    | cons v vs =>
      have hw : wfVal symb v = true ∧ wfItems symb vs = true := by
        have h : wfItems symb (v :: vs) = true := by simpa [wfVal] using hwf
        simpa [wfItems, Bool.and_eq_true] using h
      have hfc : 1 + (1 + cost v + costItems vs) ≤ f := by
        simpa [cost, costItems] using hf
      obtain ⟨f1, rfl⟩ : ∃ f1, f = f1 + 1 := ⟨f - 1, by omega⟩
      have hnorm : json_encode (.arr (v :: vs)) ++ rest =
          91 :: (json_encode v ++ (json_encode_items_rest vs ++ 93 :: rest)) := by
        simp [json_encode, json_encode_items]
      rw [hnorm]
      obtain ⟨b, t, henc, hws, h93, _, _⟩ := encode_head_facts symb v hw.1
      have hs : skipWs (91 :: (json_encode v ++ (json_encode_items_rest vs ++ 93 :: rest))) =
          91 :: (json_encode v ++ (json_encode_items_rest vs ++ 93 :: rest)) :=
        skipWs_cons _ _ (by decide)
      simp only [parseVal, hs]
      rw [if_neg (by decide), if_neg (by decide), if_neg (by decide),
        if_neg (by decide), if_pos (by trivial)]
      have hsv : skipWs (json_encode v ++ (json_encode_items_rest vs ++ 93 :: rest)) =
          json_encode v ++ (json_encode_items_rest vs ++ 93 :: rest) := by
        rw [henc, List.cons_append]
        exact skipWs_cons _ _ hws
      have hh : (json_encode v ++ (json_encode_items_rest vs ++ 93 :: rest)).head? =
          some b := by
        rw [henc]
        rfl
      rw [hsv]
      rw [if_neg (by
        rw [hh]
        simp only [Option.some.injEq]
        exact h93)]
      rw [rt_val symb v hw.1 f1 (json_encode_items_rest vs ++ 93 :: rest)
        (by omega) (delim_items vs rest)]
      simp only [rt_items symb vs hw.2 f1 rest (by omega)]
  | map pairs =>
    cases pairs with
    | nil =>
      obtain ⟨f1, rfl⟩ : ∃ f1, f = f1 + 1 := ⟨f - 1, by
        simp [cost, costPairs] at hf
        omega⟩
      have hnorm : json_encode (.map []) ++ rest = 123 :: 125 :: rest := by
        simp [json_encode, json_encode_pairs]
      rw [hnorm]
      have hs : skipWs (123 :: 125 :: rest) = 123 :: 125 :: rest :=
        skipWs_cons _ _ (by decide)
      have hs2 : skipWs (125 :: rest) = 125 :: rest := skipWs_cons _ _ (by decide)
      simp only [parseVal, hs]
      rw [if_neg (by decide), if_neg (by decide), if_neg (by decide),
        if_neg (by decide), if_neg (by decide), if_pos (by trivial)]
      simp [hs2, buildHash, buildHashGo]
    | cons p ps =>
      obtain ⟨k, v, rfl⟩ : ∃ k v, p = (k, v) := ⟨p.1, p.2, rfl⟩
      have hwp : wfPairs symb ((k, v) :: ps) = true ∧ keysNodup ((k, v) :: ps) = true := by
        have h2 : (wfPairs symb ((k, v) :: ps) && keysNodup ((k, v) :: ps)) = true := by
          simpa [wfVal] using hwf
        simpa [Bool.and_eq_true] using h2
      have hw : wfKey symb k = true ∧ wfVal symb v = true ∧ wfPairs symb ps = true := by
        have h3 : (wfKey symb k && wfVal symb v && wfPairs symb ps) = true := by
          simpa [wfPairs] using hwp.1
        simp only [Bool.and_eq_true] at h3
        exact ⟨h3.1.1, h3.1.2, h3.2⟩
      have hfc : 1 + (2 + cost v + costPairs ps) ≤ f := by
        simpa [cost, costPairs] using hf
      obtain ⟨f1, rfl⟩ : ∃ f1, f = f1 + 1 := ⟨f - 1, by omega⟩
      have hnorm : json_encode (.map ((k, v) :: ps)) ++ rest =
          123 :: (json_encode_key k ++ 58 ::
            (json_encode v ++ (json_encode_pairs_rest ps ++ 125 :: rest))) := by
        simp [json_encode, json_encode_pairs]
      rw [hnorm]
      have hkey : ∃ kt, json_encode_key k = 34 :: kt := by
        cases k <;> exact ⟨_, rfl⟩
      obtain ⟨kt, hkt⟩ := hkey
      have hs : skipWs (123 :: (json_encode_key k ++ 58 ::
          (json_encode v ++ (json_encode_pairs_rest ps ++ 125 :: rest)))) =
          123 :: (json_encode_key k ++ 58 ::
          (json_encode v ++ (json_encode_pairs_rest ps ++ 125 :: rest))) :=
        skipWs_cons _ _ (by decide)
      simp only [parseVal, hs]
      rw [if_neg (by decide), if_neg (by decide), if_neg (by decide),
        if_neg (by decide), if_neg (by decide), if_pos (by trivial)]
      have hsv : skipWs (json_encode_key k ++ 58 ::
          (json_encode v ++ (json_encode_pairs_rest ps ++ 125 :: rest))) =
          json_encode_key k ++ 58 ::
          (json_encode v ++ (json_encode_pairs_rest ps ++ 125 :: rest)) := by
        rw [hkt, List.cons_append]
        exact skipWs_cons _ _ (by decide)
      have hh : (json_encode_key k ++ 58 ::
          (json_encode v ++ (json_encode_pairs_rest ps ++ 125 :: rest))).head? =
          some 34 := by
        rw [hkt]
        rfl
      rw [hsv]
      rw [if_neg (by
        rw [hh]
        simp)]
      rw [rt_member symb k v hw.1 hw.2.1 f1 (json_encode_pairs_rest ps ++ 125 :: rest)
        (by omega) (delim_pairs ps rest)]
      simp only [rt_pairs symb ps hw.2.2 f1 rest (by omega)]
      rw [buildHash_nodup ((k, v) :: ps) hwp.2]
termination_by sizeOf v
decreasing_by
all_goals subst_vars
all_goals decreasing_tactic

/-- Helper: parsing the serialized tail of an array (comma-separated
elements up to the closing bracket) returns exactly those elements. -/
theorem rt_items (symb : Bool) (l : List HostValue) (hwf : wfItems symb l = true) :
    ∀ f rest, costItems l ≤ f →
      parseArrTail symb f (json_encode_items_rest l ++ 93 :: rest) = .ok (l, rest) := by
  intro f rest hf
  cases l with
  | nil =>
    obtain ⟨f1, rfl⟩ : ∃ f1, f = f1 + 1 := ⟨f - 1, by
      have h1 : 1 ≤ f := by simpa [costItems] using hf
      omega⟩
    have hs : skipWs (93 :: rest) = 93 :: rest := skipWs_cons _ _ (by decide)
    show parseArrTail symb (f1 + 1) (93 :: rest) = _
    simp [parseArrTail, hs]
  | cons v vs =>
    have hw : wfVal symb v = true ∧ wfItems symb vs = true := by
      simpa [wfItems, Bool.and_eq_true] using hwf
    have hfc : 1 + cost v + costItems vs ≤ f := by
      simpa [costItems] using hf
    obtain ⟨f1, rfl⟩ : ∃ f1, f = f1 + 1 := ⟨f - 1, by omega⟩
    have hnorm : json_encode_items_rest (v :: vs) ++ 93 :: rest =
        44 :: (json_encode v ++ (json_encode_items_rest vs ++ 93 :: rest)) := by
      simp [json_encode_items_rest]
    rw [hnorm]
    have hs : skipWs (44 :: (json_encode v ++ (json_encode_items_rest vs ++ 93 :: rest))) =
        44 :: (json_encode v ++ (json_encode_items_rest vs ++ 93 :: rest)) :=
      skipWs_cons _ _ (by decide)
    simp only [parseArrTail, hs]
    rw [if_neg (by simp), if_pos (by trivial)]
    simp only [List.tail_cons]
    rw [rt_val symb v hw.1 f1 (json_encode_items_rest vs ++ 93 :: rest)
      (by omega) (delim_items vs rest)]
    simp only [rt_items symb vs hw.2 f1 rest (by omega)]
termination_by sizeOf l
decreasing_by
all_goals subst_vars
all_goals decreasing_tactic

/-- Helper: parsing a serialized object member (key, colon, value) with the
matching symbolize setting returns exactly that pair. -/
theorem rt_member (symb : Bool) (k : JKey) (v : HostValue)
    (hwfk : wfKey symb k = true) (hwf : wfVal symb v = true) :
    ∀ f rest, 1 + cost v ≤ f → delimOk rest = true →
      parseMember symb f (json_encode_key k ++ 58 :: (json_encode v ++ rest)) =
        .ok ((k, v), rest) := by
  intro f rest hfuel hd
  obtain ⟨f1, rfl⟩ : ∃ f1, f = f1 + 1 := ⟨f - 1, by omega⟩
  obtain ⟨s, hks, hsymb⟩ : ∃ s, json_encode_key k = 34 :: (escapeBytes s ++ [34]) ∧
      (if symb then JKey.ksym s else JKey.kstr s) = k := by
    cases k with
    | kstr s =>
      refine ⟨s, by simp [json_encode_key], ?_⟩
      have : symb = false := by simpa [wfKey] using hwfk
      rw [this]
      rfl
    | ksym s =>
      refine ⟨s, by simp [json_encode_key], ?_⟩
      have : symb = true := by simpa [wfKey] using hwfk
      rw [this]
      rfl
  have hnorm : json_encode_key k ++ 58 :: (json_encode v ++ rest) =
      34 :: (escapeBytes s ++ 34 :: (58 :: (json_encode v ++ rest))) := by
    rw [hks]
    simp
  rw [hnorm]
  have hs : skipWs (34 :: (escapeBytes s ++ 34 :: (58 :: (json_encode v ++ rest)))) =
      34 :: (escapeBytes s ++ 34 :: (58 :: (json_encode v ++ rest))) :=
    skipWs_cons _ _ (by decide)
  simp only [parseMember, hs]
  rw [if_pos (by trivial)]
  simp only [List.tail_cons]
  rw [splitStringTok_escape s _ (58 :: (json_encode v ++ rest)) (by
    simp only [List.length_append, List.length_cons]
    omega)]
  simp only [unescapeContent_escapeBytes s]
  have hs2 : skipWs (58 :: (json_encode v ++ rest)) = 58 :: (json_encode v ++ rest) :=
    skipWs_cons _ _ (by decide)
  rw [hs2]
  rw [if_pos (by trivial)]
  simp only [List.tail_cons]
  rw [rt_val symb v hwf f1 rest (by omega) hd]
  simp only [hsymb]
termination_by sizeOf v + 1
decreasing_by
all_goals subst_vars
all_goals decreasing_tactic

/-- Helper: parsing the serialized tail of an object (comma-separated
members up to the closing brace) returns exactly those members. -/
theorem rt_pairs (symb : Bool) (ps : List (JKey × HostValue))
    (hwf : wfPairs symb ps = true) :
    ∀ f rest, costPairs ps ≤ f →
      parseObjTail symb f (json_encode_pairs_rest ps ++ 125 :: rest) = .ok (ps, rest) := by
  intro f rest hf
  cases ps with
  | nil =>
    obtain ⟨f1, rfl⟩ : ∃ f1, f = f1 + 1 := ⟨f - 1, by
      have h1 : 1 ≤ f := by simpa [costPairs] using hf
      omega⟩
    have hs : skipWs (125 :: rest) = 125 :: rest := skipWs_cons _ _ (by decide)
    show parseObjTail symb (f1 + 1) (125 :: rest) = _
    simp [parseObjTail, hs]
  | cons p rest2 =>
    obtain ⟨k, v, rfl⟩ : ∃ k v, p = (k, v) := ⟨p.1, p.2, rfl⟩
    have hw : wfKey symb k = true ∧ wfVal symb v = true ∧ wfPairs symb rest2 = true := by
      have h3 : (wfKey symb k && wfVal symb v && wfPairs symb rest2) = true := by
        simpa [wfPairs] using hwf
      simp only [Bool.and_eq_true] at h3
      exact ⟨h3.1.1, h3.1.2, h3.2⟩
    have hfc : 2 + cost v + costPairs rest2 ≤ f := by
      simpa [costPairs] using hf
    obtain ⟨f1, rfl⟩ : ∃ f1, f = f1 + 1 := ⟨f - 1, by omega⟩
    have hnorm : json_encode_pairs_rest ((k, v) :: rest2) ++ 125 :: rest =
        44 :: (json_encode_key k ++ 58 ::
          (json_encode v ++ (json_encode_pairs_rest rest2 ++ 125 :: rest))) := by
      simp [json_encode_pairs_rest]
    rw [hnorm]
    have hs : skipWs (44 :: (json_encode_key k ++ 58 ::
        (json_encode v ++ (json_encode_pairs_rest rest2 ++ 125 :: rest)))) =
        44 :: (json_encode_key k ++ 58 ::
        (json_encode v ++ (json_encode_pairs_rest rest2 ++ 125 :: rest))) :=
      skipWs_cons _ _ (by decide)
    simp only [parseObjTail, hs]
    rw [if_neg (by simp), if_pos (by trivial)]
    simp only [List.tail_cons]
    rw [rt_member symb k v hw.1 hw.2.1 f1
      (json_encode_pairs_rest rest2 ++ 125 :: rest) (by omega) (delim_pairs rest2 rest)]
    simp only [rt_pairs symb rest2 hw.2.2 f1 rest (by omega)]
termination_by sizeOf ps
decreasing_by
all_goals subst_vars
all_goals decreasing_tactic

end

/-! ## Round-trip of dump and parse (C1) -/

/-- C1: counterexample - an integer host value outside the signed 64-bit
range is an mruby bigint, which `json_encode` does not recognise: it falls
into the generic-object branch and is serialized as its quoted decimal
string representation. Dumping `2^63` therefore produces the JSON string
text `"9223372036854775808"`, and parsing that dump yields a string host
value, not the original integer, breaking the claimed round trip even
though the value contains no NaN or Infinity float and has no map keys. -/
theorem json_roundtrip_counterexample :
    mrb_json_dump (.int (2 ^ 63)) =
      .ok (34 :: ([57, 50, 50, 51, 51, 55, 50, 48, 51, 54,
        56, 53, 52, 55, 55, 53, 56, 48, 56] ++ [34])) ∧
    mrb_json_parse false
      (34 :: ([57, 50, 50, 51, 51, 55, 50, 48, 51, 54,
        56, 53, 52, 55, 55, 53, 56, 48, 56] ++ [34])) =
      .ok (.str [57, 50, 50, 51, 51, 55, 50, 48, 51, 54,
        56, 53, 52, 55, 55, 53, 56, 48, 56]) ∧
    HostValue.str [57, 50, 50, 51, 51, 55, 50, 48, 51, 54,
        56, 53, 52, 55, 55, 53, 56, 48, 56] ≠
      HostValue.int (2 ^ 63) := by
  have hnb : natToBytes (2 ^ 63) =
      [57, 50, 50, 51, 51, 55, 50, 48, 51, 54,
        56, 53, 52, 55, 55, 53, 56, 48, 56] := by
    norm_num [natToBytes, natToBytesAux]
  have hfits : fitsInt64 (2 ^ 63) = false := by norm_num [fitsInt64]
  have hint : intToBytes (2 ^ 63) = natToBytes (2 ^ 63) := by
    norm_num [intToBytes]
    rfl
  have hesc : escapeBytes [57, 50, 50, 51, 51, 55, 50, 48, 51, 54,
      56, 53, 52, 55, 55, 53, 56, 48, 56] =
      [57, 50, 50, 51, 51, 55, 50, 48, 51, 54,
        56, 53, 52, 55, 55, 53, 56, 48, 56] := by decide
  have henc : json_encode (.int (2 ^ 63)) =
      34 :: ([57, 50, 50, 51, 51, 55, 50, 48, 51, 54,
        56, 53, 52, 55, 55, 53, 56, 48, 56] ++ [34]) := by
    simp only [json_encode]
    rw [if_neg (by norm_num [fitsInt64]), hint, hnb, hesc]
    simp
  refine ⟨?_, ?_, ?_⟩
  · have hv : validUtf8 (34 :: ([57, 50, 50, 51, 51, 55, 50, 48, 51, 54,
        56, 53, 52, 55, 55, 53, 56, 48, 56] ++ [34])) = true := by decide
    unfold mrb_json_dump
    rw [henc, if_pos hv]
  · rfl
  · intro h
    exact HostValue.noConfusion h

/-- C1 (amended): for every well-formed host value - no NaN or Infinity
floats (float tokens are finite number tokens), every integer leaf within
the signed 64-bit range, map keys distinct and of the kind matching the
symbolize-names setting - a successful dump parses back (with that same
setting) to a value structurally equal to the original: same kinds, same
map keys in insertion order, same sequence elements in index order. -/
theorem json_roundtrip_amended (symb : Bool) (v : HostValue)
    (hwf : wfVal symb v = true) (out : List Nat)
    (hdump : mrb_json_dump v = .ok out) :
    mrb_json_parse symb out = .ok v := by
  have hvu : validUtf8 (json_encode v) = true := by
    by_contra h
    unfold mrb_json_dump at hdump
    rw [if_neg h] at hdump
    exact Except.noConfusion hdump
  have hout : out = json_encode v := by
    unfold mrb_json_dump at hdump
    rw [if_pos hvu] at hdump
    injection hdump with h
    exact h.symm
  subst hout
  obtain ⟨b, t, he, hws, _, _, _⟩ := encode_head_facts symb v hwf
  have hne : ¬((skipWs (json_encode v)).isEmpty = true) := by
    rw [he, skipWs_cons _ _ hws]
    simp
  unfold mrb_json_parse
  rw [if_neg hne, if_neg (by simp [hvu])]
  have hfuel : cost v ≤ 2 * (json_encode v).length + 2 :=
    le_trans (cost_le_enc symb v hwf) (by omega)
  have hrt := rt_val symb v hwf (2 * (json_encode v).length + 2) [] hfuel (by rfl)
  rw [List.append_nil] at hrt
  rw [hrt]
  simp [skipWs]

/-- C1 witness: the hash holding key "a" mapped to the array [1, null]
dumps (with string keys, symbolize off) to the bytes of the text
(with quotes and braces) a : [1, null], and parsing that text returns the
original value. -/
theorem json_roundtrip_amended_witness :
    mrb_json_parse false
      [123, 34, 97, 34, 58, 91, 49, 44, 110, 117, 108, 108, 93, 125] =
      .ok (.map [(.kstr [97], .arr [.int 1, .null])]) :=
  json_roundtrip_amended false (.map [(.kstr [97], .arr [.int 1, .null])])
    (by decide)
    [123, 34, 97, 34, 58, 91, 49, 44, 110, 117, 108, 108, 93, 125]
    rfl

/-! ## The Parse entry point freezes a borrowed input (C9) -/

/-- Error of the whole Parse call: buffer preparation failure or a parse
error from the document stage. -/
inductive ParseCallErr where
  | prep (e : PrepError)
  | parse (e : JErr)
deriving DecidableEq, Repr

/-- Embeds the Parse entry point around the engine: prepare the Buffer View
from the argument string header via `simdjson_safe_view_from_mrb_string`,
then parse the viewed bytes. The result pairs the argument string's header
state after the call with the outcome, so side effects on the argument are
observable; the viewed bytes are passed alongside the header, which models
only the storage geometry. -/
def mrb_json_parse_call (pagesize padding sizeMax : Nat) (zc symb : Bool)
    (s : MrbString) (bytes : List Nat) :
    MrbString × Except ParseCallErr HostValue :=
  match simdjson_safe_view_from_mrb_string pagesize padding sizeMax zc s with
  | .error e => (s, .error (.prep e))
  | .ok vr =>
    match mrb_json_parse symb bytes with
    | .error e => (vr.str, .error (.parse e))
    | .ok v => (vr.str, .ok v)

/-- C9: with the zero-copy flag enabled and the borrow-eligibility check
passing (`need_allocation` reports false), the Parse call freezes the
caller's argument string as a side effect: after the call the argument's
header is frozen whatever the parse outcome (success or parse error), even
when the string was mutable before the call. -/
theorem parse_zero_copy_freezes_input (ps pad szMax : Nat) (symb : Bool)
    (s : MrbString) (bytes : List Nat)
    (h : need_allocation ps pad s.ptr s.len s.capa = false) :
    ((mrb_json_parse_call ps pad szMax true symb s bytes).1).frozen = true := by
  unfold mrb_json_parse_call
  rw [safe_view_zero_copy_freezes ps pad szMax s h]
  cases mrb_json_parse symb bytes <;> simp

/-- C9 witness: a mutable two-byte string of ample capacity passes the
eligibility check, and after the Parse call (here parsing the digits 12)
its header is frozen. -/
theorem parse_zero_copy_freezes_input_witness :
    need_allocation 4096 64 0 2 100 = false ∧
    ((mrb_json_parse_call 4096 64 1000000 true false
      ⟨0, 2, 100, false⟩ [49, 50]).1).frozen = true :=
  ⟨by decide, parse_zero_copy_freezes_input 4096 64 1000000 false
    ⟨0, 2, 100, false⟩ [49, 50] (by decide)⟩

end MrbFastJson
